import Mathlib

/-!
Shallow embedding of `bracket.py` from the `marchmadness` repository
(`BracketSimulator` and its helpers), together with proofs about it.

Conventions of the embedding:
* Python `float` arithmetic is embedded as exact rational arithmetic (`ℚ`).
* A Python dict is embedded as an insertion-ordered association list with
  first-key lookup and in-place replacement, which matches CPython's
  observable dict semantics for the operations the code performs.
* The `pairwise` dict is only ever observed through `dict.get`, so it is
  embedded as its lookup function `Team → Team → Option ℚ`.
* `_dp` and `_marginals_dp` recurse on list halves; the embedding makes the
  recursion structural through a fuel argument, instantiated with
  `teams.length`, which always suffices because each level halves the list.
* Code that can raise is embedded with `Option`/`Except` results.
-/

namespace Bracket

abbrev Team := String

/-- The `pairwise : Dict[Tuple[Team, Team], float]` field, viewed through
`dict.get` (the only way the code reads it). -/
abbrev Pairwise := Team → Team → Option ℚ

/-- A Python dict as an insertion-ordered association list. -/
abbrev Dict (α β : Type) := List (α × β)

/-- `d.get(k)` / `d[k]`: value at the first matching key. -/
def dlookup {α β : Type} [DecidableEq α] : Dict α β → α → Option β
  | [], _ => none
  | (k, v) :: t, a => if k = a then some v else dlookup t a

/-- `d[k] = v`: replace the value at an existing key in place, else append
(CPython keeps the original insertion position on overwrite). -/
def dinsert {α β : Type} [DecidableEq α] : Dict α β → α → β → Dict α β
  | [], a, v => [(a, v)]
  | (k, w) :: t, a, v => if k = a then (k, v) :: t else (k, w) :: dinsert t a v

/-- `sum(d.values())`. -/
def sumValues {α : Type} (d : Dict α ℚ) : ℚ := (d.map (fun kv => kv.2)).sum

/-- `list(d.keys())`. -/
def keys {α β : Type} (d : Dict α β) : List α := d.map (fun kv => kv.1)

/-- The nested `structure` dicts built by `_dp`.  The code constructs exactly
two shapes: `{"winner": t, "left": None, "right": None}` (a leaf) and
`{"winner": t, "left": l, "right": r}` with both children dicts (a node). -/
inductive MTree : Type where
  | leaf : Team → MTree
  | node : Team → MTree → MTree → MTree
deriving DecidableEq

/-- `struct["winner"]`. -/
def MTree.winner : MTree → Team
  | .leaf w => w
  | .node w _ _ => w

/-- `struct["left"]` (`None` for a leaf). -/
def MTree.left : MTree → Option MTree
  | .leaf _ => none
  | .node _ l _ => some l

/-- `struct["right"]` (`None` for a leaf). -/
def MTree.right : MTree → Option MTree
  | .leaf _ => none
  | .node _ _ r => some r

/-- The dict has pairwise-distinct keys (every dict built by the code does). -/
def NodupKeys {α β : Type} (d : Dict α β) : Prop := (keys d).Nodup

/-- The match tree is a perfect binary tree of the given depth; the trees
`_dp` builds for a team list of length `2 ^ d` all have this shape. -/
def isPerfect : MTree → Nat → Prop
  | .leaf _, d => d = 0
  | .node _ _ _, 0 => False
  | .node _ l r, d + 1 => isPerfect l d ∧ isPerfect r d

/-- Structural sanity of a match tree: at every internal node the recorded
winner is the winner of exactly one of the two children. -/
def goodTree : MTree → Prop
  | .leaf _ => True
  | .node w l r =>
    (w = l.winner ∨ w = r.winner) ∧ l.winner ≠ r.winner ∧ goodTree l ∧ goodTree r

/-- `BracketSimulator._p`: `self.pairwise.get((a, b), 0.5)`. -/
def p (pw : Pairwise) (a b : Team) : ℚ := (pw a b).getD (1 / 2)

/-- The body of `_dp`'s inner loop for one pair `(a, b)`: the two conditional
updates of `result`.  Python's default `result.get(x, (0.0, None))[0]` is
embedded as `((dlookup _ x).map Prod.fst).getD 0` (only component 0 of the
default pair is ever used). -/
def dpStep (pw : Pairwise) (result : Dict Team (ℚ × MTree))
    (a : Team) (pa : ℚ) (sa : MTree) (b : Team) (pb : ℚ) (sb : MTree) :
    Dict Team (ℚ × MTree) :=
  let pAB := p pw a b
  let probA := pa * pb * pAB
  let probB := pa * pb * (1 - pAB)
  let r1 := if probA > ((dlookup result a).map (fun v => v.1)).getD 0 then
    dinsert result a (probA, MTree.node a sa sb) else result
  if probB > ((dlookup r1 b).map (fun v => v.1)).getD 0 then
    dinsert r1 b (probB, MTree.node b sa sb) else r1

/-- The double loop of `_dp` over `left.items() × right.items()`, starting
from the empty `result` dict. -/
def dpCombine (pw : Pairwise) (left right : Dict Team (ℚ × MTree)) :
    Dict Team (ℚ × MTree) :=
  left.foldl (fun res av =>
    right.foldl (fun res2 bv => dpStep pw res2 av.1 av.2.1 av.2.2 bv.1 bv.2.1 bv.2.2)
      res) []

/-- `BracketSimulator._dp` with fuel.  Python recurses forever on `[]`; that
case (and fuel exhaustion) is unreachable from valid input and is mapped to
the empty dict. -/
def dpFuel (pw : Pairwise) : Nat → List Team → Dict Team (ℚ × MTree)
  | _, [] => []
  | _, [t] => [(t, (1, MTree.leaf t))]
  | 0, _ :: _ :: _ => []
  | fuel + 1, t1 :: t2 :: rest =>
    dpCombine pw
      (dpFuel pw fuel ((t1 :: t2 :: rest).take ((t1 :: t2 :: rest).length / 2)))
      (dpFuel pw fuel ((t1 :: t2 :: rest).drop ((t1 :: t2 :: rest).length / 2)))

/-- `BracketSimulator._dp` on a team list. -/
def dp (pw : Pairwise) (teams : List Team) : Dict Team (ℚ × MTree) :=
  dpFuel pw teams.length teams

/-- `max(dp_result.items(), key=lambda kv: kv[1][0])`: Python's `max` keeps
the earliest item on ties and raises on an empty dict (embedded as `none`). -/
def maxByProb : Dict Team (ℚ × MTree) → Option (Team × ℚ × MTree)
  | [] => none
  | e :: rest =>
    let best := rest.foldl (fun cur kv => if kv.2.1 > cur.2.1 then kv else cur) e
    some (best.1, best.2.1, best.2.2)

/-- `BracketSimulator.most_likely_bracket`. -/
def most_likely_bracket (pw : Pairwise) (teams : List Team) :
    Option (Team × ℚ × MTree) :=
  maxByProb (dp pw teams)

/-- The body of `_marginals_dp`'s inner loop for one pair `(a, b)`. -/
def marginalStep (pw : Pairwise) (dist : Dict Team ℚ)
    (a : Team) (pa : ℚ) (b : Team) (pb : ℚ) : Dict Team ℚ :=
  let pAB := p pw a b
  let d1 := dinsert dist a ((dlookup dist a).getD 0 + pa * pb * pAB)
  dinsert d1 b ((dlookup d1 b).getD 0 + pa * pb * (1 - pAB))

/-- The inner loop `for b, pb in right.items()` for a fixed `(a, pa)`. -/
def marginalInner (pw : Pairwise) (a : Team) (pa : ℚ)
    (dist : Dict Team ℚ) (right : Dict Team ℚ) : Dict Team ℚ :=
  right.foldl (fun d bv => marginalStep pw d a pa bv.1 bv.2) dist

/-- The double loop of `_marginals_dp`, starting from the empty `dist`. -/
def marginalCombine (pw : Pairwise) (left right : Dict Team ℚ) : Dict Team ℚ :=
  left.foldl (fun d av => marginalInner pw av.1 av.2 d right) []

/-- `BracketSimulator._marginals_dp` with fuel (same device as `dpFuel`). -/
def marginalsFuel (pw : Pairwise) : Nat → List Team → Dict Team ℚ
  | _, [] => []
  | _, [t] => [(t, 1)]
  | 0, _ :: _ :: _ => []
  | fuel + 1, t1 :: t2 :: rest =>
    marginalCombine pw
      (marginalsFuel pw fuel ((t1 :: t2 :: rest).take ((t1 :: t2 :: rest).length / 2)))
      (marginalsFuel pw fuel ((t1 :: t2 :: rest).drop ((t1 :: t2 :: rest).length / 2)))

/-- `BracketSimulator.probability_of_each_team` (it just runs `_marginals_dp`
on the full team list). -/
def probability_of_each_team (pw : Pairwise) (teams : List Team) : Dict Team ℚ :=
  marginalsFuel pw teams.length teams

/-- `BracketSimulator.flatten_structure` on a non-`None` struct.  A leaf
contributes `[(len(pre) + 1, winner)]` because both its children are `None`
and `flatten_structure(None, pre) == []`. -/
def flattenT : MTree → List Team → List (Nat × Team)
  | .leaf w, pre => [(pre.length + 1, w)]
  | .node w l r, pre => flattenT l pre ++ flattenT r pre ++ [(pre.length + 1, w)]

/-- `BracketSimulator.flatten_structure` (callers use the default
`prefix=[]`; note the code passes `prefix` through unchanged and never
extends it). -/
def flatten_structure (s : Option MTree) (pre : List Team) : List (Nat × Team) :=
  match s with
  | none => []
  | some t => flattenT t pre

/-- `int(math.log2(size))`, as floor-log2 via fuel so that it evaluates by
kernel reduction; exact for the sizes the program uses (powers of two). -/
def ilog2Fuel : Nat → Nat → Nat
  | 0, _ => 0
  | f + 1, n => if 2 ≤ n then ilog2Fuel f (n / 2) + 1 else 0

/-- `int(math.log2(size))`. -/
def ilog2 (n : Nat) : Nat := ilog2Fuel n n

/-- `BracketSimulator.structure_matches` on a non-`None` struct.  `none`
marks the `TypeError` Python raises at `None["winner"]` when a leaf is
reached with `size > 1`. -/
def structure_matchesT : MTree → Nat → Option (List (Nat × Team × Team × Team))
  | _, 0 => some []
  | _, 1 => some []
  | .leaf _, _ + 2 => none
  | .node w l r, n + 2 => do
    let ml ← structure_matchesT l ((n + 2) / 2)
    let mr ← structure_matchesT r ((n + 2) / 2)
    some (ml ++ mr ++ [(ilog2 (n + 2), l.winner, r.winner, w)])

/-- `BracketSimulator.structure_matches`. -/
def structure_matches (s : Option MTree) (size : Nat) :
    Option (List (Nat × Team × Team × Team)) :=
  match s with
  | none => some []
  | some t => structure_matchesT t size

/-- The simulator object: the two fields `__init__` stores. -/
structure Simulator where
  teams : List Team
  pairwise : Pairwise

/-- The `ValueError` message of `__init__`. -/
def initErrorMsg : String := "Number of teams must be a power of two and at least 2"

/-- `BracketSimulator.__init__`: validates
`n < 2 or (n & (n - 1)) != 0` before storing the fields; `ValueError` is
embedded as `Except.error`. -/
def bracketInit (teams : List Team) (pw : Pairwise) : Except String Simulator :=
  let n := teams.length
  if n < 2 ∨ n &&& (n - 1) ≠ 0 then Except.error initErrorMsg
  else Except.ok { teams := teams, pairwise := pw }

/-! Concrete inputs used by witnesses and counterexamples. -/

def tA : Team := "A"
def tB : Team := "B"
def tC : Team := "C"
def tD : Team := "D"

def teams2 : List Team := [tA, tB]
def teams4 : List Team := [tA, tB, tC, tD]

/-- The spec's 4-team example table with symmetric completion:
P(A,B)=0.9, P(C,D)=0.8, P(A,C)=0.6 and the three reverse pairs; every other
pair defaults to 0.5 through `p`. -/
def pw7 : Pairwise := fun a b =>
  if a = tA ∧ b = tB then some (9 / 10)
  else if a = tB ∧ b = tA then some (1 / 10)
  else if a = tC ∧ b = tD then some (4 / 5)
  else if a = tD ∧ b = tC then some (1 / 5)
  else if a = tA ∧ b = tC then some (3 / 5)
  else if a = tC ∧ b = tA then some (2 / 5)
  else none

/-- Empty table: every lookup defaults to 0.5. -/
def pwEmpty : Pairwise := fun _ _ => none

/-- A table with the boundary value `P(A,B) = 0` (a legal value in [0,1]). -/
def pw0 : Pairwise := fun a b => if a = tA ∧ b = tB then some 0 else none



/-! ### Association-list (dict) lemmas -/

theorem dlookup_dinsert_self {α β : Type} [DecidableEq α] (d : Dict α β) (k : α) (v : β) :
    dlookup (dinsert d k v) k = some v := by
  induction d with
  | nil => simp [dinsert, dlookup]
  | cons hd tl ih =>
    obtain ⟨k', w⟩ := hd
    by_cases h : k' = k <;> simp [dinsert, dlookup, h, ih]

theorem dlookup_dinsert_ne {α β : Type} [DecidableEq α] (d : Dict α β) (k a : α) (v : β)
    (h : k ≠ a) : dlookup (dinsert d k v) a = dlookup d a := by
  induction d with
  | nil => simp [dinsert, dlookup, h]
  | cons hd tl ih =>
    obtain ⟨k', w⟩ := hd
    by_cases h2 : k' = k
    · subst h2; simp [dinsert, dlookup, h]
    · by_cases h3 : k' = a
      · subst h3; simp [dinsert, dlookup, h2, Ne.symm h]
      · simp [dinsert, dlookup, h2, h3, ih]

theorem mem_dinsert {α β : Type} [DecidableEq α] {d : Dict α β} {k : α} {v : β} {e : α × β}
    (h : e ∈ dinsert d k v) : e ∈ d ∨ e = (k, v) := by
  induction d with
  | nil => simp [dinsert] at h; simp [h]
  | cons hd tl ih =>
    obtain ⟨k', w⟩ := hd
    by_cases h2 : k' = k
    · subst h2; simp [dinsert] at h
      rcases h with h | h
      · right; simp [h]
      · left; simp [h]
    · simp [dinsert, h2] at h
      rcases h with h | h
      · left; simp [h]
      · rcases ih h with h3 | h3
        · left; simp [h3]
        · right; exact h3

theorem dlookup_mem {α β : Type} [DecidableEq α] {d : Dict α β} {a : α} {v : β}
    (h : dlookup d a = some v) : (a, v) ∈ d := by
  induction d with
  | nil => simp [dlookup] at h
  | cons hd tl ih =>
    obtain ⟨k', w⟩ := hd
    by_cases h2 : k' = a
    · subst h2; simp [dlookup] at h; simp [h]
    · simp [dlookup, h2] at h
      simp [ih h]

theorem dlookup_eq_none_iff {α β : Type} [DecidableEq α] (d : Dict α β) (a : α) :
    dlookup d a = none ↔ a ∉ keys d := by
  induction d with
  | nil => simp [dlookup, keys]
  | cons hd tl ih =>
    obtain ⟨k', w⟩ := hd
    by_cases h2 : k' = a
    · subst h2; simp [dlookup, keys]
    · simp [dlookup, keys, h2, ih]
      intro h3; exact fun h4 => h2 h4.symm

theorem dinsert_ne_nil {α β : Type} [DecidableEq α] (d : Dict α β) (k : α) (v : β) :
    dinsert d k v ≠ [] := by
  cases d with
  | nil => simp [dinsert]
  | cons hd tl =>
    obtain ⟨k', w⟩ := hd
    by_cases h : k' = k <;> simp [dinsert, h]

theorem sumValues_dinsert {α : Type} [DecidableEq α] (d : Dict α ℚ) (k : α) (x : ℚ) :
    sumValues (dinsert d k ((dlookup d k).getD 0 + x)) = sumValues d + x := by
  induction d with
  | nil => simp [dinsert, dlookup, sumValues]
  | cons hd tl ih =>
    obtain ⟨k', w⟩ := hd
    by_cases h : k' = k
    · subst h; simp [dinsert, dlookup, sumValues]; ring
    · simp only [dinsert, dlookup, if_neg h]
      simp only [sumValues, List.map_cons, List.sum_cons] at ih ⊢
      rw [ih]; ring

/-! ### Sum conservation in the marginal solver -/

theorem sumValues_marginalStep (pw : Pairwise) (dist : Dict Team ℚ)
    (a : Team) (pa : ℚ) (b : Team) (pb : ℚ) :
    sumValues (marginalStep pw dist a pa b pb) = sumValues dist + pa * pb := by
  simp only [marginalStep]
  rw [sumValues_dinsert, sumValues_dinsert]
  ring

theorem sumValues_marginalInner (pw : Pairwise) (a : Team) (pa : ℚ)
    (rs : Dict Team ℚ) : ∀ dist : Dict Team ℚ,
    sumValues (marginalInner pw a pa dist rs) = sumValues dist + pa * sumValues rs := by
  induction rs with
  | nil => intro dist; simp [marginalInner, sumValues]
  | cons bv tl ih =>
    intro dist
    have h : marginalInner pw a pa dist (bv :: tl)
        = marginalInner pw a pa (marginalStep pw dist a pa bv.1 bv.2) tl := rfl
    rw [h, ih, sumValues_marginalStep]
    simp [sumValues]; ring

theorem sumValues_marginalCombineAux (pw : Pairwise) (rs : Dict Team ℚ) :
    ∀ (ls acc : Dict Team ℚ),
    sumValues (ls.foldl (fun d av => marginalInner pw av.1 av.2 d rs) acc)
      = sumValues acc + sumValues ls * sumValues rs := by
  intro ls
  induction ls with
  | nil => intro acc; simp [sumValues]
  | cons av tl ih =>
    intro acc
    simp only [List.foldl_cons]
    rw [ih, sumValues_marginalInner]
    simp [sumValues]; ring

theorem sumValues_marginalCombine (pw : Pairwise) (ls rs : Dict Team ℚ) :
    sumValues (marginalCombine pw ls rs) = sumValues ls * sumValues rs := by
  have h := sumValues_marginalCombineAux pw rs ls []
  simp [marginalCombine, sumValues] at h ⊢
  rw [h]

theorem marginalsFuel_eq_combine (pw : Pairwise) (fuel : Nat) (teams : List Team)
    (h2 : 2 ≤ teams.length) :
    marginalsFuel pw (fuel + 1) teams
      = marginalCombine pw
          (marginalsFuel pw fuel (teams.take (teams.length / 2)))
          (marginalsFuel pw fuel (teams.drop (teams.length / 2))) := by
  match teams with
  | [] => simp at h2
  | [t] => simp at h2
  | t1 :: t2 :: rest => rfl

theorem sumValues_marginalsFuel (pw : Pairwise) :
    ∀ (fuel : Nat) (teams : List Team), teams ≠ [] → teams.length ≤ fuel →
    sumValues (marginalsFuel pw fuel teams) = 1 := by
  intro fuel
  induction fuel with
  | zero =>
    intro teams hne hlen
    exact absurd (List.eq_nil_of_length_eq_zero (Nat.le_zero.mp hlen)) hne
  | succ fuel ih =>
    intro teams hne hlen
    match teams with
    | [t] => simp [marginalsFuel, sumValues]
    | t1 :: t2 :: rest =>
      have h2 : 2 ≤ (t1 :: t2 :: rest).length := by simp
      have hlen2 : (t1 :: t2 :: rest).length ≤ fuel + 1 := hlen
      rw [marginalsFuel_eq_combine pw fuel _ h2, sumValues_marginalCombine]
      have htl : ((t1 :: t2 :: rest).take ((t1 :: t2 :: rest).length / 2)).length
          = (t1 :: t2 :: rest).length / 2 := by
        rw [List.length_take]; omega
      have hdl : ((t1 :: t2 :: rest).drop ((t1 :: t2 :: rest).length / 2)).length
          = (t1 :: t2 :: rest).length - (t1 :: t2 :: rest).length / 2 := by
        rw [List.length_drop]
      have hlt : (t1 :: t2 :: rest).take ((t1 :: t2 :: rest).length / 2) ≠ [] := by
        intro hnil; rw [hnil] at htl; simp at htl; omega
      have hld : (t1 :: t2 :: rest).drop ((t1 :: t2 :: rest).length / 2) ≠ [] := by
        intro hnil; rw [hnil] at hdl; simp at hdl; omega
      rw [ih _ hlt (by rw [htl]; omega), ih _ hld (by rw [hdl]; omega)]
      norm_num

/-! ### Key-set and nodup lemmas for dicts -/

theorem mem_keys_iff {α β : Type} (d : Dict α β) (x : α) :
    x ∈ keys d ↔ ∃ y, (x, y) ∈ d := by
  constructor
  · intro h
    rcases List.mem_map.mp h with ⟨⟨a, b⟩, hm, he⟩
    exact ⟨b, by simpa [← he] using hm⟩
  · rintro ⟨y, hy⟩
    exact List.mem_map.mpr ⟨(x, y), hy, rfl⟩

theorem dlookup_of_mem_nodup {α β : Type} [DecidableEq α] {d : Dict α β} {x : α} {y : β}
    (hn : NodupKeys d) (hm : (x, y) ∈ d) : dlookup d x = some y := by
  induction d with
  | nil => simp at hm
  | cons hd tl ih =>
    obtain ⟨k, w⟩ := hd
    simp only [NodupKeys, keys, List.map_cons, List.nodup_cons] at hn
    rcases List.mem_cons.mp hm with h | h
    · obtain ⟨rfl, rfl⟩ : k = x ∧ w = y := by
        have := h.symm
        simpa [Prod.ext_iff] using this
      simp [dlookup]
    · have hx : x ∈ keys tl := (mem_keys_iff tl x).mpr ⟨y, h⟩
      have hk : k ≠ x := by
        intro he; subst he; exact hn.1 hx
      simp only [dlookup, if_neg hk]
      exact ih hn.2 h

theorem mem_keys_dinsert_self {α β : Type} [DecidableEq α] (d : Dict α β) (k : α) (v : β) :
    k ∈ keys (dinsert d k v) := by
  induction d with
  | nil => simp [dinsert, keys]
  | cons hd tl ih =>
    obtain ⟨k', w⟩ := hd
    by_cases h : k' = k
    · subst h; simp [dinsert, keys]
    · simp [dinsert, keys, h] at ih ⊢
      exact Or.inr ih

theorem keys_subset_dinsert {α β : Type} [DecidableEq α] (d : Dict α β) (k : α) (v : β) :
    keys d ⊆ keys (dinsert d k v) := by
  induction d with
  | nil => simp [keys]
  | cons hd tl ih =>
    obtain ⟨k', w⟩ := hd
    by_cases h : k' = k
    · subst h; simp [dinsert, keys]
    · intro x hx
      simp [keys, dinsert, h] at hx ⊢
      rcases hx with hx | hx
      · exact Or.inl hx
      · exact Or.inr (by simpa [keys] using ih (by simpa [keys] using hx))

theorem keys_dinsert_subset {α β : Type} [DecidableEq α] (d : Dict α β) (k : α) (v : β) :
    keys (dinsert d k v) ⊆ k :: keys d := by
  induction d with
  | nil => simp [dinsert, keys]
  | cons hd tl ih =>
    obtain ⟨k', w⟩ := hd
    by_cases h : k' = k
    · subst h; intro x hx; simpa [keys, dinsert] using hx
    · intro x hx
      simp [keys, dinsert, h] at hx
      rcases hx with hx | hx
      · simp [keys, hx]
      · have := ih (by simpa [keys] using hx)
        simp [keys] at this ⊢
        tauto

theorem nodupKeys_dinsert {α β : Type} [DecidableEq α] (d : Dict α β) (k : α) (v : β)
    (h : NodupKeys d) : NodupKeys (dinsert d k v) := by
  induction d with
  | nil => simp [dinsert, NodupKeys, keys]
  | cons hd tl ih =>
    obtain ⟨k', w⟩ := hd
    simp only [NodupKeys, keys, List.map_cons, List.nodup_cons] at h
    by_cases h2 : k' = k
    · subst h2
      simpa [dinsert, NodupKeys, keys] using h
    · have htl : NodupKeys (dinsert tl k v) := ih h.2
      simp only [dinsert, if_neg h2, NodupKeys, keys, List.map_cons, List.nodup_cons]
      refine ⟨?_, htl⟩
      intro hc
      have := keys_dinsert_subset tl k v hc
      rcases List.mem_cons.mp this with hx | hx
      · exact h2 hx
      · exact h.1 hx

/-! ### Lookup characterization of the marginal solver -/

theorem dlookup_marginalStep_other (pw : Pairwise) (dist : Dict Team ℚ)
    (a : Team) (pa : ℚ) (b : Team) (pb : ℚ) (t : Team) (ha : t ≠ a) (hb : t ≠ b) :
    dlookup (marginalStep pw dist a pa b pb) t = dlookup dist t := by
  simp only [marginalStep]
  rw [dlookup_dinsert_ne _ _ _ _ (Ne.symm hb), dlookup_dinsert_ne _ _ _ _ (Ne.symm ha)]

theorem dlookup_marginalStep_left (pw : Pairwise) (dist : Dict Team ℚ)
    (a : Team) (pa : ℚ) (b : Team) (pb : ℚ) (hab : a ≠ b) :
    dlookup (marginalStep pw dist a pa b pb) a
      = some ((dlookup dist a).getD 0 + pa * pb * p pw a b) := by
  simp only [marginalStep]
  rw [dlookup_dinsert_ne _ _ _ _ (Ne.symm hab), dlookup_dinsert_self]

theorem dlookup_marginalStep_right (pw : Pairwise) (dist : Dict Team ℚ)
    (a : Team) (pa : ℚ) (b : Team) (pb : ℚ) (hab : a ≠ b) :
    dlookup (marginalStep pw dist a pa b pb) b
      = some ((dlookup dist b).getD 0 + pa * pb * (1 - p pw a b)) := by
  simp only [marginalStep]
  rw [dlookup_dinsert_self, dlookup_dinsert_ne dist a b _ hab]

theorem dlookup_marginalInner_other (pw : Pairwise) (a : Team) (pa : ℚ)
    (rs : Dict Team ℚ) : ∀ (dist : Dict Team ℚ) (t : Team), t ≠ a → t ∉ keys rs →
    dlookup (marginalInner pw a pa dist rs) t = dlookup dist t := by
  induction rs with
  | nil => intro dist t _ _; rfl
  | cons bv tl ih =>
    obtain ⟨b1, q1⟩ := bv
    intro dist t ha hr
    simp only [keys, List.map_cons, List.mem_cons] at hr
    push_neg at hr
    have h : marginalInner pw a pa dist ((b1, q1) :: tl)
        = marginalInner pw a pa (marginalStep pw dist a pa b1 q1) tl := rfl
    rw [h, ih _ t ha (by simpa [keys] using hr.2),
        dlookup_marginalStep_other pw dist a pa b1 q1 t ha hr.1]

theorem dlookup_marginalInner_self (pw : Pairwise) (a : Team) (pa : ℚ) :
    ∀ (rs : Dict Team ℚ), rs ≠ [] → a ∉ keys rs → ∀ dist : Dict Team ℚ,
    dlookup (marginalInner pw a pa dist rs) a
      = some ((dlookup dist a).getD 0
          + pa * ((rs.map (fun bv => bv.2 * p pw a bv.1)).sum)) := by
  intro rs
  induction rs with
  | nil => intro h; exact absurd rfl h
  | cons bv tl ih =>
    obtain ⟨b1, q1⟩ := bv
    intro _ ha dist
    simp only [keys, List.map_cons, List.mem_cons] at ha
    push_neg at ha
    have ha1 : a ≠ b1 := ha.1
    have h : marginalInner pw a pa dist ((b1, q1) :: tl)
        = marginalInner pw a pa (marginalStep pw dist a pa b1 q1) tl := rfl
    rw [h]
    by_cases htl : tl = []
    · subst htl
      have h2 : marginalInner pw a pa (marginalStep pw dist a pa b1 q1) []
          = marginalStep pw dist a pa b1 q1 := rfl
      rw [h2, dlookup_marginalStep_left pw dist a pa b1 q1 ha1]
      simp
      ring
    · rw [ih htl (by simpa [keys] using ha.2) _,
          dlookup_marginalStep_left pw dist a pa b1 q1 ha1]
      simp only [Option.getD_some, List.map_cons, List.sum_cons]
      congr 1
      ring

theorem dlookup_marginalInner_memRight (pw : Pairwise) (a : Team) (pa : ℚ) :
    ∀ (rs : Dict Team ℚ), NodupKeys rs → a ∉ keys rs → ∀ (b : Team) (pb : ℚ),
    (b, pb) ∈ rs → ∀ dist : Dict Team ℚ,
    dlookup (marginalInner pw a pa dist rs) b
      = some ((dlookup dist b).getD 0 + pa * pb * (1 - p pw a b)) := by
  intro rs
  induction rs with
  | nil => intro _ _ b pb hm; simp at hm
  | cons bv tl ih =>
    obtain ⟨b1, q1⟩ := bv
    intro hnod ha b pb hm dist
    simp only [keys, List.map_cons, List.mem_cons] at ha
    push_neg at ha
    have ha1 : a ≠ b1 := ha.1
    simp only [NodupKeys, keys, List.map_cons, List.nodup_cons] at hnod
    have h : marginalInner pw a pa dist ((b1, q1) :: tl)
        = marginalInner pw a pa (marginalStep pw dist a pa b1 q1) tl := rfl
    rw [h]
    rcases List.mem_cons.mp hm with h1 | h1
    · obtain ⟨rfl, rfl⟩ : b1 = b ∧ q1 = pb := by
        have := h1.symm
        simpa [Prod.ext_iff] using this
      have hbtl : b1 ∉ keys tl := by simpa [keys] using hnod.1
      rw [dlookup_marginalInner_other pw a pa tl _ b1 (fun he => ha1 he.symm) hbtl,
          dlookup_marginalStep_right pw dist a pa b1 q1 ha1]
    · have hbk : b ∈ keys tl := (mem_keys_iff tl b).mpr ⟨pb, h1⟩
      have hba : b ≠ a := by
        intro he
        subst he
        exact absurd hbk (by simpa [keys] using ha.2)
      have hbv : b1 ≠ b := by
        intro he
        rw [he] at hnod
        exact hnod.1 (by simpa [keys] using hbk)
      rw [ih hnod.2 (by simpa [keys] using ha.2) b pb h1 _,
          dlookup_marginalStep_other pw dist a pa b1 q1 b hba hbv.symm]

theorem dlookup_marginalOuter_other (pw : Pairwise) (rs : Dict Team ℚ) :
    ∀ (ls acc : Dict Team ℚ) (t : Team), t ∉ keys ls → t ∉ keys rs →
    dlookup (ls.foldl (fun d av => marginalInner pw av.1 av.2 d rs) acc) t
      = dlookup acc t := by
  intro ls
  induction ls with
  | nil => intro acc t _ _; rfl
  | cons av tl ih =>
    obtain ⟨a1, q1⟩ := av
    intro acc t hl hr
    simp only [keys, List.map_cons, List.mem_cons] at hl
    push_neg at hl
    simp only [List.foldl_cons]
    rw [ih _ t (by simpa [keys] using hl.2) hr,
        dlookup_marginalInner_other pw a1 q1 rs acc t hl.1 hr]

theorem dlookup_marginalOuter_left (pw : Pairwise) (rs : Dict Team ℚ)
    (hrs : rs ≠ []) :
    ∀ (ls : Dict Team ℚ), NodupKeys ls → (∀ x ∈ keys ls, x ∉ keys rs) →
    ∀ (t : Team) (pt : ℚ), (t, pt) ∈ ls → ∀ acc : Dict Team ℚ,
    dlookup (ls.foldl (fun d av => marginalInner pw av.1 av.2 d rs) acc) t
      = some ((dlookup acc t).getD 0
          + pt * ((rs.map (fun bv => bv.2 * p pw t bv.1)).sum)) := by
  intro ls
  induction ls with
  | nil => intro _ _ t pt hm; simp at hm
  | cons av tl ih =>
    obtain ⟨a1, q1⟩ := av
    intro hnod hdisj t pt hm acc
    simp only [NodupKeys, keys, List.map_cons, List.nodup_cons] at hnod
    simp only [List.foldl_cons]
    rcases List.mem_cons.mp hm with h1 | h1
    · obtain ⟨rfl, rfl⟩ : a1 = t ∧ q1 = pt := by
        have := h1.symm
        simpa [Prod.ext_iff] using this
      have hak : a1 ∉ keys tl := by simpa [keys] using hnod.1
      have har : a1 ∉ keys rs := hdisj a1 (by simp [keys])
      rw [dlookup_marginalOuter_other pw rs tl _ a1 hak har,
          dlookup_marginalInner_self pw a1 q1 rs hrs har acc]
    · have htk : t ∈ keys tl := (mem_keys_iff tl t).mpr ⟨pt, h1⟩
      have hta : t ≠ a1 := by
        intro he
        rw [he] at htk
        exact hnod.1 (by simpa [keys] using htk)
      have htr : t ∉ keys rs := by
        refine hdisj t ?_
        simp only [keys, List.map_cons, List.mem_cons]
        exact Or.inr (by simpa [keys] using htk)
      have hdisj2 : ∀ x ∈ keys tl, x ∉ keys rs := by
        intro x hx
        refine hdisj x ?_
        simp only [keys, List.map_cons, List.mem_cons]
        exact Or.inr (by simpa [keys] using hx)
      rw [ih hnod.2 hdisj2 t pt h1 _,
          dlookup_marginalInner_other pw a1 q1 rs acc t hta htr]

theorem dlookup_marginalOuter_right (pw : Pairwise) (rs : Dict Team ℚ)
    (hnodr : NodupKeys rs) (b : Team) (pb : ℚ) (hbr : (b, pb) ∈ rs) :
    ∀ (ls : Dict Team ℚ), ls ≠ [] → (∀ x ∈ keys ls, x ∉ keys rs) →
    ∀ acc : Dict Team ℚ,
    dlookup (ls.foldl (fun d av => marginalInner pw av.1 av.2 d rs) acc) b
      = some ((dlookup acc b).getD 0
          + ((ls.map (fun av => av.2 * pb * (1 - p pw av.1 b))).sum)) := by
  intro ls
  induction ls with
  | nil => intro h; exact absurd rfl h
  | cons av tl ih =>
    obtain ⟨a1, q1⟩ := av
    intro _ hdisj acc
    have har : a1 ∉ keys rs := hdisj a1 (by simp [keys])
    have hdisj2 : ∀ x ∈ keys tl, x ∉ keys rs := by
      intro x hx
      refine hdisj x ?_
      simp only [keys, List.map_cons, List.mem_cons]
      exact Or.inr (by simpa [keys] using hx)
    simp only [List.foldl_cons]
    by_cases htl : tl = []
    · subst htl
      simp only [List.foldl_nil]
      rw [dlookup_marginalInner_memRight pw a1 q1 rs hnodr har b pb hbr acc]
      simp only [List.map_cons, List.map_nil, List.sum_cons, List.sum_nil]
      congr 1
      ring
    · rw [ih htl hdisj2 _,
          dlookup_marginalInner_memRight pw a1 q1 rs hnodr har b pb hbr acc]
      simp only [Option.getD_some, List.map_cons, List.sum_cons]
      congr 1
      ring

/-! ### Nodup keys through the marginal solver -/

theorem nodupKeys_marginalStep (pw : Pairwise) (dist : Dict Team ℚ)
    (a : Team) (pa : ℚ) (b : Team) (pb : ℚ) (h : NodupKeys dist) :
    NodupKeys (marginalStep pw dist a pa b pb) := by
  simp only [marginalStep]
  exact nodupKeys_dinsert _ _ _ (nodupKeys_dinsert _ _ _ h)

theorem nodupKeys_marginalInner (pw : Pairwise) (a : Team) (pa : ℚ)
    (rs : Dict Team ℚ) : ∀ dist : Dict Team ℚ, NodupKeys dist →
    NodupKeys (marginalInner pw a pa dist rs) := by
  induction rs with
  | nil => intro dist h; exact h
  | cons bv tl ih =>
    intro dist h
    have he : marginalInner pw a pa dist (bv :: tl)
        = marginalInner pw a pa (marginalStep pw dist a pa bv.1 bv.2) tl := rfl
    rw [he]
    exact ih _ (nodupKeys_marginalStep pw dist a pa bv.1 bv.2 h)

theorem nodupKeys_marginalOuter (pw : Pairwise) (rs : Dict Team ℚ) :
    ∀ (ls acc : Dict Team ℚ), NodupKeys acc →
    NodupKeys (ls.foldl (fun d av => marginalInner pw av.1 av.2 d rs) acc) := by
  intro ls
  induction ls with
  | nil => intro acc h; exact h
  | cons av tl ih =>
    intro acc h
    simp only [List.foldl_cons]
    exact ih _ (nodupKeys_marginalInner pw av.1 av.2 rs acc h)

theorem nodupKeys_marginalsFuel (pw : Pairwise) :
    ∀ (fuel : Nat) (teams : List Team), NodupKeys (marginalsFuel pw fuel teams) := by
  intro fuel teams
  match fuel, teams with
  | _, [] => simp [marginalsFuel, NodupKeys, keys]
  | _, [t] => simp [marginalsFuel, NodupKeys, keys]
  | 0, t1 :: t2 :: rest => simp [marginalsFuel, NodupKeys, keys]
  | fuel + 1, t1 :: t2 :: rest =>
    exact nodupKeys_marginalOuter pw _ _ [] (by simp [NodupKeys, keys])

/-! ### Nonnegative values through the marginal solver -/

theorem getD_nonneg {d : Dict Team ℚ} (h : ∀ e ∈ d, 0 ≤ e.2) (a : Team) :
    0 ≤ (dlookup d a).getD 0 := by
  cases hl : dlookup d a with
  | none => simp
  | some v => simpa using h _ (dlookup_mem hl)

theorem entries_nonneg_dinsert {d : Dict Team ℚ} {k : Team} {v : ℚ}
    (h : ∀ e ∈ d, 0 ≤ e.2) (hv : 0 ≤ v) : ∀ e ∈ dinsert d k v, 0 ≤ e.2 := by
  intro e he
  rcases mem_dinsert he with h1 | h1
  · exact h _ h1
  · rw [h1]
    exact hv

theorem p_range (pw : Pairwise) (hpw : ∀ a b v, pw a b = some v → 0 ≤ v ∧ v ≤ 1)
    (a b : Team) : 0 ≤ p pw a b ∧ p pw a b ≤ 1 := by
  unfold p
  cases h : pw a b with
  | none => norm_num
  | some v => simpa using hpw a b v h

theorem marginalStep_nonneg (pw : Pairwise)
    (hpw : ∀ a b v, pw a b = some v → 0 ≤ v ∧ v ≤ 1)
    (dist : Dict Team ℚ) (a : Team) (pa : ℚ) (b : Team) (pb : ℚ)
    (hd : ∀ e ∈ dist, 0 ≤ e.2) (hpa : 0 ≤ pa) (hpb : 0 ≤ pb) :
    ∀ e ∈ marginalStep pw dist a pa b pb, 0 ≤ e.2 := by
  have hp := p_range pw hpw a b
  simp only [marginalStep]
  have h1 : ∀ e ∈ dinsert dist a ((dlookup dist a).getD 0 + pa * pb * p pw a b),
      0 ≤ e.2 :=
    entries_nonneg_dinsert hd
      (add_nonneg (getD_nonneg hd a)
        (mul_nonneg (mul_nonneg hpa hpb) hp.1))
  exact entries_nonneg_dinsert h1
    (add_nonneg (getD_nonneg h1 b)
      (mul_nonneg (mul_nonneg hpa hpb) (by linarith [hp.2])))

theorem marginalInner_nonneg (pw : Pairwise)
    (hpw : ∀ a b v, pw a b = some v → 0 ≤ v ∧ v ≤ 1)
    (a : Team) (pa : ℚ) (hpa : 0 ≤ pa) :
    ∀ rs : Dict Team ℚ, (∀ e ∈ rs, 0 ≤ e.2) →
    ∀ dist : Dict Team ℚ, (∀ e ∈ dist, 0 ≤ e.2) →
    ∀ e ∈ marginalInner pw a pa dist rs, 0 ≤ e.2 := by
  intro rs
  induction rs with
  | nil => intro _ dist h; exact h
  | cons bv tl ih =>
    intro hrs dist h
    have he : marginalInner pw a pa dist (bv :: tl)
        = marginalInner pw a pa (marginalStep pw dist a pa bv.1 bv.2) tl := rfl
    rw [he]
    exact ih (fun e hee => hrs e (List.mem_cons_of_mem _ hee)) _
      (marginalStep_nonneg pw hpw dist a pa bv.1 bv.2 h hpa
        (hrs bv (List.mem_cons_self _ _)))

theorem marginalOuter_nonneg (pw : Pairwise)
    (hpw : ∀ a b v, pw a b = some v → 0 ≤ v ∧ v ≤ 1)
    (rs : Dict Team ℚ) (hrs : ∀ e ∈ rs, 0 ≤ e.2) :
    ∀ ls : Dict Team ℚ, (∀ e ∈ ls, 0 ≤ e.2) →
    ∀ acc : Dict Team ℚ, (∀ e ∈ acc, 0 ≤ e.2) →
    ∀ e ∈ ls.foldl (fun d av => marginalInner pw av.1 av.2 d rs) acc, 0 ≤ e.2 := by
  intro ls
  induction ls with
  | nil => intro _ acc h; exact h
  | cons av tl ih =>
    intro hls acc h
    simp only [List.foldl_cons]
    exact ih (fun e hee => hls e (List.mem_cons_of_mem _ hee)) _
      (marginalInner_nonneg pw hpw av.1 av.2
        (by simpa using hls av (List.mem_cons_self _ _)) rs hrs acc h)

theorem marginalsFuel_nonneg (pw : Pairwise)
    (hpw : ∀ a b v, pw a b = some v → 0 ≤ v ∧ v ≤ 1) :
    ∀ (fuel : Nat) (teams : List Team),
    ∀ e ∈ marginalsFuel pw fuel teams, 0 ≤ e.2 := by
  intro fuel
  induction fuel with
  | zero =>
    intro teams e he
    match teams, he with
    | [t], he => simp [marginalsFuel] at he; simp [he]
  | succ fuel ih =>
    intro teams e he
    match teams, he with
    | [t], he => simp [marginalsFuel] at he; simp [he]
    | t1 :: t2 :: rest, he =>
      exact marginalOuter_nonneg pw hpw _ (ih _) _ (ih _) [] (by simp) e he

/-! ### Fuel-level lemmas for the marginal solver -/

theorem sum_map_eq_length_mul {α : Type} (l : List α) (f : α → ℚ) (c : ℚ)
    (h : ∀ x ∈ l, f x = c) : (l.map f).sum = l.length * c := by
  induction l with
  | nil => simp
  | cons x tl ih =>
    simp only [List.map_cons, List.sum_cons, List.length_cons]
    rw [h x (List.mem_cons_self _ _), ih (fun y hy => h y (List.mem_cons_of_mem _ hy))]
    push_cast
    ring

theorem length_eq_of_nodup_of_mem_iff {l1 l2 : List Team} (h1 : l1.Nodup)
    (h2 : l2.Nodup) (h : ∀ x, x ∈ l1 ↔ x ∈ l2) : l1.length = l2.length := by
  have e : l1.toFinset = l2.toFinset := by
    ext x
    simp only [List.mem_toFinset]
    exact h x
  rw [← List.toFinset_card_of_nodup h1, ← List.toFinset_card_of_nodup h2, e]

theorem dlookup_marginalsFuel_not_mem (pw : Pairwise) :
    ∀ (fuel : Nat) (teams : List Team) (t : Team), t ∉ teams →
    dlookup (marginalsFuel pw fuel teams) t = none := by
  intro fuel
  induction fuel with
  | zero =>
    intro teams t ht
    rcases teams with _ | ⟨t1, _ | ⟨t2, rest⟩⟩
    · rfl
    · simp only [List.mem_singleton] at ht
      have ht2 : ¬t1 = t := fun h => ht h.symm
      simp only [marginalsFuel, dlookup, if_neg ht2]
    · rfl
  | succ fuel ih =>
    intro teams t ht
    rcases teams with _ | ⟨t1, _ | ⟨t2, rest⟩⟩
    · rfl
    · simp only [List.mem_singleton] at ht
      have ht2 : ¬t1 = t := fun h => ht h.symm
      simp only [marginalsFuel, dlookup, if_neg ht2]
    · have hsplit := List.take_append_drop
        ((t1 :: t2 :: rest).length / 2) (t1 :: t2 :: rest)
      have htt : t ∉ (t1 :: t2 :: rest).take ((t1 :: t2 :: rest).length / 2) := by
        intro hmem
        exact ht (by rw [← hsplit]; exact List.mem_append.mpr (Or.inl hmem))
      have htd : t ∉ (t1 :: t2 :: rest).drop ((t1 :: t2 :: rest).length / 2) := by
        intro hmem
        exact ht (by rw [← hsplit]; exact List.mem_append.mpr (Or.inr hmem))
      have hkT : t ∉ keys (marginalsFuel pw fuel
          ((t1 :: t2 :: rest).take ((t1 :: t2 :: rest).length / 2))) := by
        rw [← dlookup_eq_none_iff]
        exact ih _ t htt
      have hkD : t ∉ keys (marginalsFuel pw fuel
          ((t1 :: t2 :: rest).drop ((t1 :: t2 :: rest).length / 2))) := by
        rw [← dlookup_eq_none_iff]
        exact ih _ t htd
      have hcomb : marginalsFuel pw (fuel + 1) (t1 :: t2 :: rest)
          = (marginalsFuel pw fuel
              ((t1 :: t2 :: rest).take ((t1 :: t2 :: rest).length / 2))).foldl
              (fun d av => marginalInner pw av.1 av.2 d
                (marginalsFuel pw fuel
                  ((t1 :: t2 :: rest).drop ((t1 :: t2 :: rest).length / 2)))) [] := rfl
      rw [hcomb, dlookup_marginalOuter_other pw _ _ [] t hkT hkD]
      rfl

theorem marginalsFuel_le_one (pw : Pairwise)
    (hpw : ∀ a b v, pw a b = some v → 0 ≤ v ∧ v ≤ 1)
    (fuel : Nat) (teams : List Team) (hne : teams ≠ []) (hle : teams.length ≤ fuel) :
    ∀ e ∈ marginalsFuel pw fuel teams, e.2 ≤ 1 := by
  intro e he
  have hsum := sumValues_marginalsFuel pw fuel teams hne hle
  have hnn := marginalsFuel_nonneg pw hpw fuel teams
  have hle2 : e.2 ≤ sumValues (marginalsFuel pw fuel teams) := by
    apply List.single_le_sum
    · intro x hx
      rcases List.mem_map.mp hx with ⟨y, hy, rfl⟩
      exact hnn y hy
    · exact List.mem_map.mpr ⟨e, he, rfl⟩
  rw [hsum] at hle2
  exact hle2

theorem marginalsFuel_uniform (pw : Pairwise) (huni : ∀ a b, p pw a b = 1 / 2) :
    ∀ (fuel k : Nat) (teams : List Team), teams.Nodup →
    teams.length = 2 ^ k → teams.length ≤ fuel → ∀ t ∈ teams,
    dlookup (marginalsFuel pw fuel teams) t = some (1 / 2 ^ k) := by
  intro fuel
  induction fuel with
  | zero =>
    intro k teams _ hlen hle t _
    have hpos : 0 < 2 ^ k := pow_pos (by norm_num) k
    omega
  | succ fuel ih =>
    intro k teams hnd hlen hle t ht
    rcases teams with _ | ⟨t1, _ | ⟨t2, rest⟩⟩
    · simp at ht
    · have hk : k = 0 := by
        by_contra hk0
        have h2 : 1 < 2 ^ k := Nat.one_lt_two_pow_iff.mpr hk0
        simp at hlen
        omega
      subst hk
      rcases List.mem_singleton.mp ht with rfl
      simp [marginalsFuel, dlookup]
    · have hk1 : k ≠ 0 := by
        intro h
        subst h
        simp at hlen
      obtain ⟨j, rfl⟩ : ∃ j, k = j + 1 := ⟨k - 1, by omega⟩
      have hps : (2 : ℕ) ^ (j + 1) = 2 ^ j * 2 := pow_succ 2 j
      have hL : (t1 :: t2 :: rest).length = 2 ^ (j + 1) := hlen
      have hhalf : (t1 :: t2 :: rest).length / 2 = 2 ^ j := by
        rw [hL, hps]
        omega
      have htake_len : ((t1 :: t2 :: rest).take
          ((t1 :: t2 :: rest).length / 2)).length = 2 ^ j := by
        rw [List.length_take, hhalf, hL, hps]
        omega
      have hdrop_len : ((t1 :: t2 :: rest).drop
          ((t1 :: t2 :: rest).length / 2)).length = 2 ^ j := by
        rw [List.length_drop, hhalf, hL, hps]
        omega
      have hjpos : 0 < 2 ^ j := pow_pos (by norm_num) j
      have hjle : 2 ^ j ≤ fuel := by omega
      have hsplit := List.take_append_drop
        ((t1 :: t2 :: rest).length / 2) (t1 :: t2 :: rest)
      have hnd2 : (((t1 :: t2 :: rest).take ((t1 :: t2 :: rest).length / 2))
          ++ ((t1 :: t2 :: rest).drop ((t1 :: t2 :: rest).length / 2))).Nodup := by
        rw [hsplit]
        exact hnd
      rw [List.nodup_append] at hnd2
      obtain ⟨hndt, hndd, hdisjTD⟩ := hnd2
      set tk := (t1 :: t2 :: rest).take ((t1 :: t2 :: rest).length / 2) with htk
      set dr := (t1 :: t2 :: rest).drop ((t1 :: t2 :: rest).length / 2) with hdr
      set lsT := marginalsFuel pw fuel tk with hlsT
      set rsD := marginalsFuel pw fuel dr with hrsD
      have ihT : ∀ x ∈ tk, dlookup lsT x = some (1 / 2 ^ j) :=
        fun x hx => ih j tk hndt htake_len (htake_len ▸ hjle) x hx
      have ihD : ∀ x ∈ dr, dlookup rsD x = some (1 / 2 ^ j) :=
        fun x hx => ih j dr hndd hdrop_len (hdrop_len ▸ hjle) x hx
      have hkT : ∀ x, x ∈ keys lsT → x ∈ tk := by
        intro x hx
        by_contra hxx
        have hn := dlookup_marginalsFuel_not_mem pw fuel tk x hxx
        rw [dlookup_eq_none_iff] at hn
        exact hn hx
      have hkD : ∀ x, x ∈ keys rsD → x ∈ dr := by
        intro x hx
        by_contra hxx
        have hn := dlookup_marginalsFuel_not_mem pw fuel dr x hxx
        rw [dlookup_eq_none_iff] at hn
        exact hn hx
      have hDne : rsD ≠ [] := by
        have hpos2 : 0 < dr.length := by rw [hdrop_len]; exact hjpos
        obtain ⟨x, hx⟩ := List.exists_mem_of_length_pos hpos2
        intro h0
        have := ihD x hx
        rw [h0] at this
        simp [dlookup] at this
      have hTne : lsT ≠ [] := by
        have hpos2 : 0 < tk.length := by rw [htake_len]; exact hjpos
        obtain ⟨x, hx⟩ := List.exists_mem_of_length_pos hpos2
        intro h0
        have := ihT x hx
        rw [h0] at this
        simp [dlookup] at this
      have hdisjK : ∀ x ∈ keys lsT, x ∉ keys rsD :=
        fun x hx hx2 => hdisjTD (hkT x hx) (hkD x hx2)
      have hentT : ∀ av ∈ lsT, av.2 = 1 / 2 ^ j := by
        intro av hav
        have hm : (av.1, av.2) ∈ lsT := by simpa using hav
        have h1 : av.1 ∈ keys lsT := (mem_keys_iff _ _).mpr ⟨av.2, hm⟩
        have h3 := dlookup_of_mem_nodup (nodupKeys_marginalsFuel pw fuel tk) hm
        rw [ihT av.1 (hkT _ h1)] at h3
        exact (Option.some.inj h3).symm
      have hentD : ∀ bv ∈ rsD, bv.2 = 1 / 2 ^ j := by
        intro bv hbv
        have hm : (bv.1, bv.2) ∈ rsD := by simpa using hbv
        have h1 : bv.1 ∈ keys rsD := (mem_keys_iff _ _).mpr ⟨bv.2, hm⟩
        have h3 := dlookup_of_mem_nodup (nodupKeys_marginalsFuel pw fuel dr) hm
        rw [ihD bv.1 (hkD _ h1)] at h3
        exact (Option.some.inj h3).symm
      have hlenT : lsT.length = 2 ^ j := by
        have hkl : (keys lsT).length = lsT.length := by simp [keys]
        rw [← hkl, ← htake_len]
        apply length_eq_of_nodup_of_mem_iff (nodupKeys_marginalsFuel pw fuel tk) hndt
        intro x
        constructor
        · exact hkT x
        · intro hx
          exact (mem_keys_iff _ _).mpr ⟨_, dlookup_mem (ihT x hx)⟩
      have hlenD : rsD.length = 2 ^ j := by
        have hkl : (keys rsD).length = rsD.length := by simp [keys]
        rw [← hkl, ← hdrop_len]
        apply length_eq_of_nodup_of_mem_iff (nodupKeys_marginalsFuel pw fuel dr) hndd
        intro x
        constructor
        · exact hkD x
        · intro hx
          exact (mem_keys_iff _ _).mpr ⟨_, dlookup_mem (ihD x hx)⟩
      have hcomb : marginalsFuel pw (fuel + 1) (t1 :: t2 :: rest)
          = lsT.foldl (fun d av => marginalInner pw av.1 av.2 d rsD) [] := rfl
      have h2q : ((2 : ℚ) ^ j) ≠ 0 := by positivity
      have ht2 : t ∈ tk ++ dr := by rw [hsplit]; exact ht
      rcases List.mem_append.mp ht2 with htt | htd
      · have hmem : (t, 1 / 2 ^ j) ∈ lsT := dlookup_mem (ihT t htt)
        rw [hcomb, dlookup_marginalOuter_left pw rsD hDne lsT
          (nodupKeys_marginalsFuel pw fuel tk) hdisjK t _ hmem []]
        have hsum : (rsD.map (fun bv => bv.2 * p pw t bv.1)).sum
            = (rsD.length : ℚ) * ((1 / 2 ^ j) * (1 / 2)) := by
          apply sum_map_eq_length_mul
          intro x hx
          rw [hentD x hx, huni]
        rw [hsum, hlenD]
        have hlk : dlookup ([] : Dict Team ℚ) t = none := rfl
        rw [hlk]
        congr 1
        push_cast
        field_simp
        ring
      · have hmem : (t, 1 / 2 ^ j) ∈ rsD := dlookup_mem (ihD t htd)
        rw [hcomb, dlookup_marginalOuter_right pw rsD
          (nodupKeys_marginalsFuel pw fuel dr) t _ hmem lsT hTne hdisjK []]
        have hsum : (lsT.map (fun av => av.2 * (1 / 2 ^ j) * (1 - p pw av.1 t))).sum
            = (lsT.length : ℚ) * ((1 / 2 ^ j) * ((1 / 2 ^ j) * (1 / 2))) := by
          apply sum_map_eq_length_mul
          intro x hx
          rw [hentT x hx, huni]
          ring
        rw [hsum, hlenT]
        have hlk : dlookup ([] : Dict Team ℚ) t = none := rfl
        rw [hlk]
        congr 1
        push_cast
        field_simp
        ring

/-! ### The max-likelihood solver: membership and invariants -/

theorem dpFuel_eq_combine (pw : Pairwise) (fuel : Nat) (teams : List Team)
    (h2 : 2 ≤ teams.length) :
    dpFuel pw (fuel + 1) teams
      = dpCombine pw
          (dpFuel pw fuel (teams.take (teams.length / 2)))
          (dpFuel pw fuel (teams.drop (teams.length / 2))) := by
  match teams with
  | [] => simp at h2
  | [t] => simp at h2
  | t1 :: t2 :: rest => rfl

theorem mem_ite_dinsert {α β : Type} [DecidableEq α] {c : Prop} [Decidable c]
    {d : Dict α β} {k : α} {v : β} {e : α × β}
    (h : e ∈ (if c then dinsert d k v else d)) : e ∈ d ∨ e = (k, v) := by
  split at h
  · exact mem_dinsert h
  · exact Or.inl h

theorem dpStep_mem {pw : Pairwise} {res : Dict Team (ℚ × MTree)}
    {a : Team} {pa : ℚ} {sa : MTree} {b : Team} {pb : ℚ} {sb : MTree}
    {e : Team × ℚ × MTree} (h : e ∈ dpStep pw res a pa sa b pb sb) :
    e ∈ res ∨ e = (a, (pa * pb * p pw a b, MTree.node a sa sb))
      ∨ e = (b, (pa * pb * (1 - p pw a b), MTree.node b sa sb)) := by
  simp only [dpStep] at h
  rcases mem_ite_dinsert h with h1 | h1
  · rcases mem_ite_dinsert h1 with h2 | h2
    · exact Or.inl h2
    · exact Or.inr (Or.inl h2)
  · exact Or.inr (Or.inr h1)

theorem dpInnerFold_mem (pw : Pairwise) (a : Team) (pa : ℚ) (sa : MTree) :
    ∀ (rs res : Dict Team (ℚ × MTree)) (e : Team × ℚ × MTree),
    e ∈ rs.foldl (fun r2 bv => dpStep pw r2 a pa sa bv.1 bv.2.1 bv.2.2) res →
    e ∈ res ∨ ∃ bv ∈ rs,
      e = (a, (pa * bv.2.1 * p pw a bv.1, MTree.node a sa bv.2.2))
      ∨ e = (bv.1, (pa * bv.2.1 * (1 - p pw a bv.1), MTree.node bv.1 sa bv.2.2)) := by
  intro rs
  induction rs with
  | nil => intro res e h; exact Or.inl h
  | cons bv tl ih =>
    intro res e h
    simp only [List.foldl_cons] at h
    rcases ih _ e h with h1 | h1
    · rcases dpStep_mem h1 with h2 | h2 | h2
      · exact Or.inl h2
      · exact Or.inr ⟨bv, List.mem_cons_self _ _, Or.inl h2⟩
      · exact Or.inr ⟨bv, List.mem_cons_self _ _, Or.inr h2⟩
    · obtain ⟨cv, hcv, hor⟩ := h1
      exact Or.inr ⟨cv, List.mem_cons_of_mem _ hcv, hor⟩

theorem dpOuterFold_mem (pw : Pairwise) (rs : Dict Team (ℚ × MTree)) :
    ∀ (ls acc : Dict Team (ℚ × MTree)) (e : Team × ℚ × MTree),
    e ∈ ls.foldl (fun res av =>
      rs.foldl (fun r2 bv => dpStep pw r2 av.1 av.2.1 av.2.2 bv.1 bv.2.1 bv.2.2)
        res) acc →
    e ∈ acc ∨ ∃ av ∈ ls, ∃ bv ∈ rs,
      e = (av.1, (av.2.1 * bv.2.1 * p pw av.1 bv.1, MTree.node av.1 av.2.2 bv.2.2))
      ∨ e = (bv.1, (av.2.1 * bv.2.1 * (1 - p pw av.1 bv.1),
          MTree.node bv.1 av.2.2 bv.2.2)) := by
  intro ls
  induction ls with
  | nil => intro acc e h; exact Or.inl h
  | cons av tl ih =>
    intro acc e h
    simp only [List.foldl_cons] at h
    rcases ih _ e h with h1 | h1
    · rcases dpInnerFold_mem pw av.1 av.2.1 av.2.2 rs acc e h1 with h2 | h2
      · exact Or.inl h2
      · obtain ⟨bv, hbv, hor⟩ := h2
        exact Or.inr ⟨av, List.mem_cons_self _ _, bv, hbv, hor⟩
    · obtain ⟨cv, hcv, bv, hbv, hor⟩ := h1
      exact Or.inr ⟨cv, List.mem_cons_of_mem _ hcv, bv, hbv, hor⟩

theorem dpCombine_mem {pw : Pairwise} {ls rs : Dict Team (ℚ × MTree)}
    {e : Team × ℚ × MTree} (h : e ∈ dpCombine pw ls rs) :
    ∃ av ∈ ls, ∃ bv ∈ rs,
      e = (av.1, (av.2.1 * bv.2.1 * p pw av.1 bv.1, MTree.node av.1 av.2.2 bv.2.2))
      ∨ e = (bv.1, (av.2.1 * bv.2.1 * (1 - p pw av.1 bv.1),
          MTree.node bv.1 av.2.2 bv.2.2)) := by
  rcases dpOuterFold_mem pw rs ls [] e h with h1 | h1
  · simp at h1
  · exact h1

/-! ### Positivity of the probabilities stored by `_dp` -/

theorem getDFst_nonneg {res : Dict Team (ℚ × MTree)}
    (h : ∀ e ∈ res, 0 < e.2.1) (x : Team) :
    0 ≤ ((dlookup res x).map (fun v => v.1)).getD 0 := by
  cases hl : dlookup res x with
  | none => simp
  | some v =>
    simpa using le_of_lt (h _ (dlookup_mem hl))

theorem dpStep_pos {pw : Pairwise} {res : Dict Team (ℚ × MTree)}
    {a : Team} {pa : ℚ} {sa : MTree} {b : Team} {pb : ℚ} {sb : MTree}
    (h : ∀ e ∈ res, 0 < e.2.1) :
    ∀ e ∈ dpStep pw res a pa sa b pb sb, 0 < e.2.1 := by
  intro e he
  simp only [dpStep] at he
  set r1 := (if pa * pb * p pw a b > ((dlookup res a).map (fun v => v.1)).getD 0 then
    dinsert res a (pa * pb * p pw a b, MTree.node a sa sb) else res) with hr1def
  have hr1 : ∀ x ∈ r1, 0 < x.2.1 := by
    rw [hr1def]
    split
    · rename_i h1
      intro x hx
      rcases mem_dinsert hx with h2 | h2
      · exact h _ h2
      · rw [h2]
        exact lt_of_le_of_lt (getDFst_nonneg h a) h1
    · exact h
  split at he
  · rename_i hg
    rcases mem_dinsert he with h2 | h2
    · exact hr1 _ h2
    · rw [h2]
      exact lt_of_le_of_lt (getDFst_nonneg hr1 b) hg
  · exact hr1 _ he

theorem dpInnerFold_pos (pw : Pairwise) (a : Team) (pa : ℚ) (sa : MTree) :
    ∀ (rs res : Dict Team (ℚ × MTree)), (∀ e ∈ res, 0 < e.2.1) →
    ∀ e ∈ rs.foldl (fun r2 bv => dpStep pw r2 a pa sa bv.1 bv.2.1 bv.2.2) res,
    0 < e.2.1 := by
  intro rs
  induction rs with
  | nil => intro res h; exact h
  | cons bv tl ih =>
    intro res h
    simp only [List.foldl_cons]
    exact ih _ (dpStep_pos h)

theorem dpOuterFold_pos (pw : Pairwise) (rs : Dict Team (ℚ × MTree)) :
    ∀ (ls acc : Dict Team (ℚ × MTree)), (∀ e ∈ acc, 0 < e.2.1) →
    ∀ e ∈ ls.foldl (fun res av =>
      rs.foldl (fun r2 bv => dpStep pw r2 av.1 av.2.1 av.2.2 bv.1 bv.2.1 bv.2.2)
        res) acc,
    0 < e.2.1 := by
  intro ls
  induction ls with
  | nil => intro acc h; exact h
  | cons av tl ih =>
    intro acc h
    simp only [List.foldl_cons]
    exact ih _ (dpInnerFold_pos pw av.1 av.2.1 av.2.2 rs acc h)

theorem dpFuel_pos (pw : Pairwise) :
    ∀ (fuel : Nat) (teams : List Team), ∀ e ∈ dpFuel pw fuel teams, 0 < e.2.1 := by
  intro fuel teams
  match fuel, teams with
  | _, [] => intro e he; simp [dpFuel] at he
  | _, [t] =>
    intro e he
    simp only [dpFuel, List.mem_singleton] at he
    rw [he]
    norm_num
  | 0, t1 :: t2 :: rest => intro e he; simp [dpFuel] at he
  | fuel + 1, t1 :: t2 :: rest =>
    exact dpOuterFold_pos pw _ _ [] (by simp)

theorem dpFuel_le_one (pw : Pairwise)
    (hpw : ∀ a b v, pw a b = some v → 0 ≤ v ∧ v ≤ 1) :
    ∀ (fuel : Nat) (teams : List Team), ∀ e ∈ dpFuel pw fuel teams, e.2.1 ≤ 1 := by
  intro fuel
  induction fuel with
  | zero =>
    intro teams e he
    match teams, he with
    | [t], he =>
      simp only [dpFuel, List.mem_singleton] at he
      rw [he]
  | succ fuel ih =>
    intro teams e he
    match teams, he with
    | [t], he =>
      simp only [dpFuel, List.mem_singleton] at he
      rw [he]
    | t1 :: t2 :: rest, he =>
      obtain ⟨av, hav, bv, hbv, hor⟩ := dpCombine_mem he
      have hpa1 : av.2.1 ≤ 1 := ih _ _ hav
      have hpb1 : bv.2.1 ≤ 1 := ih _ _ hbv
      have hpa0 : 0 < av.2.1 := dpFuel_pos pw _ _ _ hav
      have hpb0 : 0 < bv.2.1 := dpFuel_pos pw _ _ _ hbv
      have hp := p_range pw hpw av.1 bv.1
      have hprod : av.2.1 * bv.2.1 ≤ 1 :=
        mul_le_one₀ hpa1 (le_of_lt hpb0) hpb1
      rcases hor with h1 | h1 <;> rw [h1]
      · exact mul_le_one₀ hprod hp.1 hp.2
      · exact mul_le_one₀ hprod (by linarith [hp.2]) (by linarith [hp.1])

/-! ### `max` over the dp result -/

theorem foldl_max_mem :
    ∀ (l : List (Team × ℚ × MTree)) (e : Team × ℚ × MTree),
    l.foldl (fun cur kv => if kv.2.1 > cur.2.1 then kv else cur) e ∈ e :: l := by
  intro l
  induction l with
  | nil => intro e; simp
  | cons hd tl ih =>
    intro e
    simp only [List.foldl_cons]
    rcases List.mem_cons.mp (ih (if hd.2.1 > e.2.1 then hd else e)) with h | h
    · rw [h]
      split
      · simp
      · simp
    · simp [List.mem_cons_of_mem, h]

theorem maxByProb_mem {d : Dict Team (ℚ × MTree)} {t : Team} {q : ℚ} {s : MTree}
    (h : maxByProb d = some (t, q, s)) : (t, (q, s)) ∈ d := by
  match d with
  | [] => simp [maxByProb] at h
  | e :: rest =>
    have hmem := foldl_max_mem rest e
    have hx : ((rest.foldl (fun cur kv => if kv.2.1 > cur.2.1 then kv else cur) e).1,
        (rest.foldl (fun cur kv => if kv.2.1 > cur.2.1 then kv else cur) e).2.1,
        (rest.foldl (fun cur kv => if kv.2.1 > cur.2.1 then kv else cur) e).2.2)
        = (t, q, s) := Option.some.inj h
    rw [← hx]
    simpa using hmem

theorem maxByProb_ne_nil {d : Dict Team (ℚ × MTree)} (h : d ≠ []) :
    ∃ t q s, maxByProb d = some (t, q, s) := by
  match d with
  | [] => exact absurd rfl h
  | e :: rest => exact ⟨_, _, _, rfl⟩

/-! ### Structural invariants of the dp result -/

theorem dpFuel_good (pw : Pairwise) :
    ∀ (fuel : Nat) (teams : List Team), teams.Nodup → teams.length ≤ fuel →
    ∀ e ∈ dpFuel pw fuel teams,
    e.2.2.winner = e.1 ∧ goodTree e.2.2 ∧ e.1 ∈ teams := by
  intro fuel
  induction fuel with
  | zero =>
    intro teams _ hle e he
    have hnil : teams = [] := List.eq_nil_of_length_eq_zero (Nat.le_zero.mp hle)
    subst hnil
    simp [dpFuel] at he
  | succ fuel ih =>
    intro teams hnd hle e he
    rcases teams with _ | ⟨t1, _ | ⟨t2, rest⟩⟩
    · simp [dpFuel] at he
    · simp only [dpFuel, List.mem_singleton] at he
      rw [he]
      exact ⟨rfl, trivial, by simp⟩
    · have h2 : 2 ≤ (t1 :: t2 :: rest).length := by simp
      rw [dpFuel_eq_combine pw fuel _ h2] at he
      obtain ⟨av, hav, bv, hbv, hor⟩ := dpCombine_mem he
      have hsplit := List.take_append_drop
        ((t1 :: t2 :: rest).length / 2) (t1 :: t2 :: rest)
      have hnd2 : (((t1 :: t2 :: rest).take ((t1 :: t2 :: rest).length / 2))
          ++ ((t1 :: t2 :: rest).drop ((t1 :: t2 :: rest).length / 2))).Nodup := by
        rw [hsplit]; exact hnd
      rw [List.nodup_append] at hnd2
      obtain ⟨hndt, hndd, hdisjTD⟩ := hnd2
      have hltk : ((t1 :: t2 :: rest).take ((t1 :: t2 :: rest).length / 2)).length
          ≤ fuel := by
        rw [List.length_take]
        simp only [List.length_cons] at hle ⊢
        omega
      have hldr : ((t1 :: t2 :: rest).drop ((t1 :: t2 :: rest).length / 2)).length
          ≤ fuel := by
        rw [List.length_drop]
        simp only [List.length_cons] at hle ⊢
        omega
      obtain ⟨hwA, hgA, hmA⟩ := ih _ hndt hltk av hav
      obtain ⟨hwB, hgB, hmB⟩ := ih _ hndd hldr bv hbv
      have hne : av.1 ≠ bv.1 := fun h => hdisjTD hmA (h ▸ hmB)
      have hmemA : av.1 ∈ t1 :: t2 :: rest := List.take_subset _ _ hmA
      have hmemB : bv.1 ∈ t1 :: t2 :: rest := List.drop_subset _ _ hmB
      rcases hor with h1 | h1 <;> rw [h1]
      · refine ⟨rfl, ?_, hmemA⟩
        refine ⟨?_, ?_, hgA, hgB⟩
        · rw [hwA]
          exact Or.inl rfl
        · rw [hwA, hwB]
          exact hne
      · refine ⟨rfl, ?_, hmemB⟩
        refine ⟨?_, ?_, hgA, hgB⟩
        · rw [hwB]
          exact Or.inr rfl
        · rw [hwA, hwB]
          exact hne

theorem dpFuel_perfect (pw : Pairwise) :
    ∀ (fuel d : Nat) (teams : List Team), teams.length = 2 ^ d →
    teams.length ≤ fuel → ∀ e ∈ dpFuel pw fuel teams, isPerfect e.2.2 d := by
  intro fuel
  induction fuel with
  | zero =>
    intro d teams hlen hle e _
    have hpos : 0 < 2 ^ d := pow_pos (by norm_num) d
    omega
  | succ fuel ih =>
    intro d teams hlen hle e he
    rcases teams with _ | ⟨t1, _ | ⟨t2, rest⟩⟩
    · simp [dpFuel] at he
    · have hd : d = 0 := by
        by_contra hd0
        have := Nat.one_lt_two_pow_iff.mpr hd0
        simp at hlen
        omega
      subst hd
      simp only [dpFuel, List.mem_singleton] at he
      rw [he]
      simp [isPerfect]
    · have hd1 : d ≠ 0 := by
        intro h
        subst h
        simp at hlen
      obtain ⟨j, rfl⟩ : ∃ j, d = j + 1 := ⟨d - 1, by omega⟩
      have hps : (2 : ℕ) ^ (j + 1) = 2 ^ j * 2 := pow_succ 2 j
      have hL : (t1 :: t2 :: rest).length = 2 ^ (j + 1) := hlen
      have hhalf : (t1 :: t2 :: rest).length / 2 = 2 ^ j := by
        rw [hL, hps]; omega
      have htake_len : ((t1 :: t2 :: rest).take
          ((t1 :: t2 :: rest).length / 2)).length = 2 ^ j := by
        rw [List.length_take, hhalf, hL, hps]; omega
      have hdrop_len : ((t1 :: t2 :: rest).drop
          ((t1 :: t2 :: rest).length / 2)).length = 2 ^ j := by
        rw [List.length_drop, hhalf, hL, hps]
        omega
      have hjle : 2 ^ j ≤ fuel := by
        have h1 : (t1 :: t2 :: rest).length ≤ fuel + 1 := hle
        rw [hL, hps] at h1
        have hjpos : 0 < 2 ^ j := pow_pos (by norm_num) j
        omega
      have h2 : 2 ≤ (t1 :: t2 :: rest).length := by simp
      rw [dpFuel_eq_combine pw fuel _ h2] at he
      obtain ⟨av, hav, bv, hbv, hor⟩ := dpCombine_mem he
      have hpA := ih j _ htake_len (htake_len ▸ hjle) av hav
      have hpB := ih j _ hdrop_len (hdrop_len ▸ hjle) bv hbv
      rcases hor with h1 | h1 <;> rw [h1] <;> simp only [isPerfect] <;>
        exact ⟨hpA, hpB⟩

/-! ### The dp result is nonempty on a nonempty team list -/

theorem dpStep_ne_nil_keep {pw : Pairwise} {res : Dict Team (ℚ × MTree)}
    {a : Team} {pa : ℚ} {sa : MTree} {b : Team} {pb : ℚ} {sb : MTree}
    (h : res ≠ []) : dpStep pw res a pa sa b pb sb ≠ [] := by
  simp only [dpStep]
  split
  · split
    · exact dinsert_ne_nil _ _ _
    · exact dinsert_ne_nil _ _ _
  · split
    · exact dinsert_ne_nil _ _ _
    · exact h

theorem dpStep_ne_nil_pos {pw : Pairwise}
    {a : Team} {pa : ℚ} {sa : MTree} {b : Team} {pb : ℚ} {sb : MTree}
    (hpp : 0 < pa * pb) (res : Dict Team (ℚ × MTree)) :
    dpStep pw res a pa sa b pb sb ≠ [] := by
  match res with
  | _ :: _ => exact dpStep_ne_nil_keep (by simp)
  | [] =>
    simp only [dpStep]
    by_cases h1 : pa * pb * p pw a b
        > ((dlookup ([] : Dict Team (ℚ × MTree)) a).map (fun v => v.1)).getD 0
    · rw [if_pos h1]
      split
      · exact dinsert_ne_nil _ _ _
      · exact dinsert_ne_nil _ _ _
    · rw [if_neg h1]
      have ha0 : pa * pb * p pw a b ≤ 0 := by
        have := not_lt.mp h1
        simpa [dlookup] using this
      have hb : pa * pb * (1 - p pw a b) > 0 := by
        have hre : pa * pb * (1 - p pw a b) = pa * pb - pa * pb * p pw a b := by ring
        rw [hre]
        linarith
      rw [if_pos (by simpa [dlookup] using hb)]
      exact dinsert_ne_nil _ _ _

theorem dpInnerFold_ne_nil_keep (pw : Pairwise) (a : Team) (pa : ℚ) (sa : MTree) :
    ∀ (rs res : Dict Team (ℚ × MTree)), res ≠ [] →
    rs.foldl (fun r2 bv => dpStep pw r2 a pa sa bv.1 bv.2.1 bv.2.2) res ≠ [] := by
  intro rs
  induction rs with
  | nil => intro res h; exact h
  | cons bv tl ih =>
    intro res h
    simp only [List.foldl_cons]
    exact ih _ (dpStep_ne_nil_keep h)

theorem dpInnerFold_ne_nil (pw : Pairwise) (a : Team) (pa : ℚ) (sa : MTree)
    (hpa : 0 < pa) :
    ∀ (rs res : Dict Team (ℚ × MTree)), rs ≠ [] → (∀ e ∈ rs, 0 < e.2.1) →
    rs.foldl (fun r2 bv => dpStep pw r2 a pa sa bv.1 bv.2.1 bv.2.2) res ≠ [] := by
  intro rs
  match rs with
  | [] => intro res h; exact absurd rfl h
  | bv :: tl =>
    intro res _ hpos
    simp only [List.foldl_cons]
    apply dpInnerFold_ne_nil_keep
    exact dpStep_ne_nil_pos
      (mul_pos hpa (hpos bv (List.mem_cons_self _ _))) res

theorem dpOuterFold_ne_nil_keep (pw : Pairwise) (rs : Dict Team (ℚ × MTree)) :
    ∀ (ls acc : Dict Team (ℚ × MTree)), acc ≠ [] →
    ls.foldl (fun res av =>
      rs.foldl (fun r2 bv => dpStep pw r2 av.1 av.2.1 av.2.2 bv.1 bv.2.1 bv.2.2)
        res) acc ≠ [] := by
  intro ls
  induction ls with
  | nil => intro acc h; exact h
  | cons av tl ih =>
    intro acc h
    simp only [List.foldl_cons]
    exact ih _ (dpInnerFold_ne_nil_keep pw av.1 av.2.1 av.2.2 rs acc h)

theorem dpCombine_ne_nil {pw : Pairwise} {ls rs : Dict Team (ℚ × MTree)}
    (hls : ls ≠ []) (hrs : rs ≠ []) (hlpos : ∀ e ∈ ls, 0 < e.2.1)
    (hrpos : ∀ e ∈ rs, 0 < e.2.1) : dpCombine pw ls rs ≠ [] := by
  match ls with
  | [] => exact absurd rfl hls
  | av :: tl =>
    have h1 : rs.foldl
        (fun r2 bv => dpStep pw r2 av.1 av.2.1 av.2.2 bv.1 bv.2.1 bv.2.2) [] ≠ [] :=
      dpInnerFold_ne_nil pw av.1 av.2.1 av.2.2
        (hlpos av (List.mem_cons_self _ _)) rs [] hrs hrpos
    exact dpOuterFold_ne_nil_keep pw rs tl _ h1

theorem dpFuel_ne_nil (pw : Pairwise) :
    ∀ (fuel : Nat) (teams : List Team), teams ≠ [] → teams.length ≤ fuel →
    dpFuel pw fuel teams ≠ [] := by
  intro fuel
  induction fuel with
  | zero =>
    intro teams hne hle
    exact absurd (List.eq_nil_of_length_eq_zero (Nat.le_zero.mp hle)) hne
  | succ fuel ih =>
    intro teams hne hle
    rcases teams with _ | ⟨t1, _ | ⟨t2, rest⟩⟩
    · exact absurd rfl hne
    · simp [dpFuel]
    · have h2 : 2 ≤ (t1 :: t2 :: rest).length := by simp
      rw [dpFuel_eq_combine pw fuel _ h2]
      have hltk : ((t1 :: t2 :: rest).take ((t1 :: t2 :: rest).length / 2)).length
          ≤ fuel := by
        rw [List.length_take]
        simp only [List.length_cons] at hle ⊢
        omega
      have hldr : ((t1 :: t2 :: rest).drop ((t1 :: t2 :: rest).length / 2)).length
          ≤ fuel := by
        rw [List.length_drop]
        simp only [List.length_cons] at hle ⊢
        omega
      have htne : (t1 :: t2 :: rest).take ((t1 :: t2 :: rest).length / 2) ≠ [] := by
        intro h0
        have : ((t1 :: t2 :: rest).take ((t1 :: t2 :: rest).length / 2)).length = 0 := by
          rw [h0]; rfl
        rw [List.length_take] at this
        simp at this
        omega
      have hdne : (t1 :: t2 :: rest).drop ((t1 :: t2 :: rest).length / 2) ≠ [] := by
        intro h0
        have : ((t1 :: t2 :: rest).drop ((t1 :: t2 :: rest).length / 2)).length = 0 := by
          rw [h0]; rfl
        rw [List.length_drop] at this
        simp at this
        omega
      exact dpCombine_ne_nil (ih _ htne hltk) (ih _ hdne hldr)
        (dpFuel_pos pw fuel _) (dpFuel_pos pw fuel _)

/-! ### Key presence in the dp result -/

theorem mem_keys_of_getD_pos {res : Dict Team (ℚ × MTree)} {x : Team}
    (h : 0 < ((dlookup res x).map (fun v => v.1)).getD 0) : x ∈ keys res := by
  cases hl : dlookup res x with
  | none => rw [hl] at h; simp at h
  | some v => exact (mem_keys_iff _ _).mpr ⟨v, dlookup_mem hl⟩

theorem keys_dpStep_superset {pw : Pairwise} {res : Dict Team (ℚ × MTree)}
    {a : Team} {pa : ℚ} {sa : MTree} {b : Team} {pb : ℚ} {sb : MTree} :
    keys res ⊆ keys (dpStep pw res a pa sa b pb sb) := by
  intro x hx
  simp only [dpStep]
  split
  · split
    · exact keys_subset_dinsert _ _ _ (keys_subset_dinsert _ _ _ hx)
    · exact keys_subset_dinsert _ _ _ hx
  · split
    · exact keys_subset_dinsert _ _ _ hx
    · exact hx

theorem mem_keys_dpStep_a {pw : Pairwise} {res : Dict Team (ℚ × MTree)}
    {a : Team} {pa : ℚ} {sa : MTree} {b : Team} {pb : ℚ} {sb : MTree}
    (hprob : 0 < pa * pb * p pw a b) :
    a ∈ keys (dpStep pw res a pa sa b pb sb) := by
  simp only [dpStep]
  split
  · split
    · exact keys_subset_dinsert _ _ _ (mem_keys_dinsert_self _ _ _)
    · exact mem_keys_dinsert_self _ _ _
  · rename_i hc
    have ha : a ∈ keys res :=
      mem_keys_of_getD_pos (lt_of_lt_of_le hprob (not_lt.mp hc))
    split
    · exact keys_subset_dinsert _ _ _ ha
    · exact ha

theorem mem_keys_dpStep_b {pw : Pairwise} {res : Dict Team (ℚ × MTree)}
    {a : Team} {pa : ℚ} {sa : MTree} {b : Team} {pb : ℚ} {sb : MTree}
    (hprob : 0 < pa * pb * (1 - p pw a b)) :
    b ∈ keys (dpStep pw res a pa sa b pb sb) := by
  simp only [dpStep]
  split
  all_goals
    split
    · exact mem_keys_dinsert_self _ _ _
    · rename_i hc
      exact mem_keys_of_getD_pos (lt_of_lt_of_le hprob (not_lt.mp hc))

theorem dpInnerFold_keys_keep (pw : Pairwise) (a : Team) (pa : ℚ) (sa : MTree) :
    ∀ (rs res : Dict Team (ℚ × MTree)) (x : Team), x ∈ keys res →
    x ∈ keys (rs.foldl (fun r2 bv => dpStep pw r2 a pa sa bv.1 bv.2.1 bv.2.2) res) := by
  intro rs
  induction rs with
  | nil => intro res x hx; exact hx
  | cons bv tl ih =>
    intro res x hx
    simp only [List.foldl_cons]
    exact ih _ x (keys_dpStep_superset hx)

theorem dpInnerFold_keys_a (pw : Pairwise) (a : Team) (pa : ℚ) (sa : MTree)
    (hpa : 0 < pa) (hp0 : ∀ x y : Team, 0 < p pw x y) :
    ∀ (rs res : Dict Team (ℚ × MTree)), rs ≠ [] → (∀ e ∈ rs, 0 < e.2.1) →
    a ∈ keys (rs.foldl (fun r2 bv => dpStep pw r2 a pa sa bv.1 bv.2.1 bv.2.2) res) := by
  intro rs
  match rs with
  | [] => intro res h; exact absurd rfl h
  | bv :: tl =>
    intro res _ hpos
    simp only [List.foldl_cons]
    apply dpInnerFold_keys_keep
    exact mem_keys_dpStep_a
      (mul_pos (mul_pos hpa (hpos bv (List.mem_cons_self _ _))) (hp0 a bv.1))

theorem dpInnerFold_keys_b (pw : Pairwise) (a : Team) (pa : ℚ) (sa : MTree)
    (hpa : 0 < pa) (hp1 : ∀ x y : Team, p pw x y < 1) :
    ∀ (rs res : Dict Team (ℚ × MTree)) (bv : Team × ℚ × MTree), bv ∈ rs →
    0 < bv.2.1 →
    bv.1 ∈ keys (rs.foldl (fun r2 cv => dpStep pw r2 a pa sa cv.1 cv.2.1 cv.2.2) res) := by
  intro rs
  induction rs with
  | nil => intro res bv h; simp at h
  | cons cv tl ih =>
    intro res bv hm hbpos
    simp only [List.foldl_cons]
    rcases List.mem_cons.mp hm with h1 | h1
    · subst h1
      apply dpInnerFold_keys_keep
      apply mem_keys_dpStep_b
      have h2 : 0 < 1 - p pw a bv.1 := by linarith [hp1 a bv.1]
      exact mul_pos (mul_pos hpa hbpos) h2
    · exact ih _ bv h1 hbpos

theorem dpOuterFold_keys_keep (pw : Pairwise) (rs : Dict Team (ℚ × MTree)) :
    ∀ (ls acc : Dict Team (ℚ × MTree)) (x : Team), x ∈ keys acc →
    x ∈ keys (ls.foldl (fun res av =>
      rs.foldl (fun r2 bv => dpStep pw r2 av.1 av.2.1 av.2.2 bv.1 bv.2.1 bv.2.2)
        res) acc) := by
  intro ls
  induction ls with
  | nil => intro acc x hx; exact hx
  | cons av tl ih =>
    intro acc x hx
    simp only [List.foldl_cons]
    exact ih _ x (dpInnerFold_keys_keep pw av.1 av.2.1 av.2.2 rs acc x hx)

theorem dpOuterFold_keys_left (pw : Pairwise) (rs : Dict Team (ℚ × MTree))
    (hrs : rs ≠ []) (hrpos : ∀ e ∈ rs, 0 < e.2.1) (hp0 : ∀ x y : Team, 0 < p pw x y) :
    ∀ (ls acc : Dict Team (ℚ × MTree)) (av : Team × ℚ × MTree), av ∈ ls →
    0 < av.2.1 →
    av.1 ∈ keys (ls.foldl (fun res cv =>
      rs.foldl (fun r2 bv => dpStep pw r2 cv.1 cv.2.1 cv.2.2 bv.1 bv.2.1 bv.2.2)
        res) acc) := by
  intro ls
  induction ls with
  | nil => intro acc av h; simp at h
  | cons cv tl ih =>
    intro acc av hm hapos
    simp only [List.foldl_cons]
    rcases List.mem_cons.mp hm with h1 | h1
    · subst h1
      apply dpOuterFold_keys_keep
      exact dpInnerFold_keys_a pw av.1 av.2.1 av.2.2 hapos hp0 rs acc hrs hrpos
    · exact ih _ av h1 hapos

theorem dpOuterFold_keys_right (pw : Pairwise) (rs : Dict Team (ℚ × MTree))
    (hp1 : ∀ x y : Team, p pw x y < 1) :
    ∀ (ls acc : Dict Team (ℚ × MTree)) (bv : Team × ℚ × MTree), bv ∈ rs →
    0 < bv.2.1 → ls ≠ [] → (∀ e ∈ ls, 0 < e.2.1) →
    bv.1 ∈ keys (ls.foldl (fun res cv =>
      rs.foldl (fun r2 dv => dpStep pw r2 cv.1 cv.2.1 cv.2.2 dv.1 dv.2.1 dv.2.2)
        res) acc) := by
  intro ls
  match ls with
  | [] => intro acc bv _ _ h; exact absurd rfl h
  | cv :: tl =>
    intro acc bv hbm hbpos _ hlpos
    simp only [List.foldl_cons]
    apply dpOuterFold_keys_keep
    exact dpInnerFold_keys_b pw cv.1 cv.2.1 cv.2.2
      (hlpos cv (List.mem_cons_self _ _)) hp1 rs acc bv hbm hbpos

theorem dpFuel_keys_all (pw : Pairwise) (hp0 : ∀ x y : Team, 0 < p pw x y)
    (hp1 : ∀ x y : Team, p pw x y < 1) :
    ∀ (fuel : Nat) (teams : List Team), teams.length ≤ fuel →
    ∀ t ∈ teams, t ∈ keys (dpFuel pw fuel teams) := by
  intro fuel
  induction fuel with
  | zero =>
    intro teams hle t ht
    have hnil : teams = [] := List.eq_nil_of_length_eq_zero (Nat.le_zero.mp hle)
    subst hnil
    simp at ht
  | succ fuel ih =>
    intro teams hle t ht
    rcases teams with _ | ⟨t1, _ | ⟨t2, rest⟩⟩
    · simp at ht
    · rcases List.mem_singleton.mp ht with rfl
      simp [dpFuel, keys]
    · have h2 : 2 ≤ (t1 :: t2 :: rest).length := by simp
      rw [dpFuel_eq_combine pw fuel _ h2]
      have hltk : ((t1 :: t2 :: rest).take ((t1 :: t2 :: rest).length / 2)).length
          ≤ fuel := by
        rw [List.length_take]
        simp only [List.length_cons] at hle ⊢
        omega
      have hldr : ((t1 :: t2 :: rest).drop ((t1 :: t2 :: rest).length / 2)).length
          ≤ fuel := by
        rw [List.length_drop]
        simp only [List.length_cons] at hle ⊢
        omega
      have htne : (t1 :: t2 :: rest).take ((t1 :: t2 :: rest).length / 2) ≠ [] := by
        intro h0
        have h3 : ((t1 :: t2 :: rest).take ((t1 :: t2 :: rest).length / 2)).length = 0 := by
          rw [h0]; rfl
        rw [List.length_take] at h3
        simp at h3
        omega
      have hdne : (t1 :: t2 :: rest).drop ((t1 :: t2 :: rest).length / 2) ≠ [] := by
        intro h0
        have h3 : ((t1 :: t2 :: rest).drop ((t1 :: t2 :: rest).length / 2)).length = 0 := by
          rw [h0]; rfl
        rw [List.length_drop] at h3
        simp at h3
        omega
      have hsplit := List.take_append_drop
        ((t1 :: t2 :: rest).length / 2) (t1 :: t2 :: rest)
      have ht2 : t ∈ (t1 :: t2 :: rest).take ((t1 :: t2 :: rest).length / 2)
          ∨ t ∈ (t1 :: t2 :: rest).drop ((t1 :: t2 :: rest).length / 2) := by
        rw [← List.mem_append, hsplit]
        exact ht
      rcases ht2 with htt | htd
      · have hk := ih _ hltk t htt
        obtain ⟨v, hv⟩ := (mem_keys_iff _ _).mp hk
        exact dpOuterFold_keys_left pw _ (dpFuel_ne_nil pw fuel _ hdne hldr)
          (dpFuel_pos pw fuel _) hp0 _ [] (t, v) hv
          (dpFuel_pos pw fuel _ (t, v) hv)
      · have hk := ih _ hldr t htd
        obtain ⟨v, hv⟩ := (mem_keys_iff _ _).mp hk
        exact dpOuterFold_keys_right pw _ hp1 _ [] (t, v) hv
          (dpFuel_pos pw fuel _ (t, v) hv)
          (dpFuel_ne_nil pw fuel _ htne hltk) (dpFuel_pos pw fuel _)

/-! ### `int(math.log2 _)` on powers of two -/

theorem ilog2Fuel_pow : ∀ (f j : Nat), 2 ^ j ≤ f → ilog2Fuel f (2 ^ j) = j := by
  intro f
  induction f with
  | zero =>
    intro j h
    have := pow_pos (by norm_num : (0 : ℕ) < 2) j
    omega
  | succ f ih =>
    intro j h
    match j with
    | 0 => simp [ilog2Fuel]
    | j + 1 =>
      have hjpos : 0 < 2 ^ j := pow_pos (by norm_num) j
      have hps : (2 : ℕ) ^ (j + 1) = 2 ^ j * 2 := pow_succ 2 j
      have h2 : 2 ≤ 2 ^ (j + 1) := by omega
      show (if 2 ≤ 2 ^ (j + 1) then ilog2Fuel f (2 ^ (j + 1) / 2) + 1 else 0) = j + 1
      rw [if_pos h2]
      have hdiv : 2 ^ (j + 1) / 2 = 2 ^ j := by omega
      rw [hdiv, ih j (by omega)]

theorem ilog2_pow (j : Nat) : ilog2 (2 ^ j) = j := ilog2Fuel_pow _ j le_rfl

/-! ### `structure_matches` on perfect, well-formed trees -/

theorem structure_matchesT_node (w : Team) (l r : MTree) (k : Nat) (h2 : 2 ≤ k) :
    structure_matchesT (.node w l r) k
      = (structure_matchesT l (k / 2)).bind (fun ml =>
          (structure_matchesT r (k / 2)).bind (fun mr =>
            some (ml ++ mr ++ [(ilog2 k, l.winner, r.winner, w)]))) := by
  match k with
  | 0 => exact absurd h2 (by norm_num)
  | 1 => exact absurd h2 (by norm_num)
  | n + 2 => rfl

theorem structure_matchesT_small (s : MTree) (size : Nat) (h : size ≤ 1) :
    structure_matchesT s size = some [] := by
  match size with
  | 0 => match s with
    | .leaf _ => rfl
    | .node _ _ _ => rfl
  | 1 => match s with
    | .leaf _ => rfl
    | .node _ _ _ => rfl

theorem structure_matchesT_perfect :
    ∀ (s : MTree) (d : Nat), isPerfect s d →
    ∃ ms, structure_matchesT s (2 ^ d) = some ms ∧ ms.length = 2 ^ d - 1 ∧
      ∀ rr : Nat, (ms.map (fun m => m.1)).count rr
        = if 1 ≤ rr ∧ rr ≤ d then 2 ^ (d - rr) else 0 := by
  intro s
  induction s with
  | leaf w =>
    intro d hp
    have hd : d = 0 := hp
    subst hd
    refine ⟨[], rfl, rfl, ?_⟩
    intro rr
    rw [if_neg (by omega)]
    simp
  | node w l r ihl ihr =>
    intro d hp
    match d, hp with
    | dd + 1, hp =>
      obtain ⟨hpl, hpr⟩ := hp
      obtain ⟨ml, hml, hmllen, hmlcount⟩ := ihl dd hpl
      obtain ⟨mr, hmr, hmrlen, hmrcount⟩ := ihr dd hpr
      have hjpos : 0 < 2 ^ dd := pow_pos (by norm_num) dd
      have hps : (2 : ℕ) ^ (dd + 1) = 2 ^ dd * 2 := pow_succ 2 dd
      have h2 : 2 ≤ 2 ^ (dd + 1) := by omega
      have hdiv : 2 ^ (dd + 1) / 2 = 2 ^ dd := by omega
      refine ⟨ml ++ mr ++ [(ilog2 (2 ^ (dd + 1)), l.winner, r.winner, w)], ?_, ?_, ?_⟩
      · rw [structure_matchesT_node w l r _ h2, hdiv, hml, hmr]
        rfl
      · simp only [List.length_append, List.length_singleton, hmllen, hmrlen]
        omega
      · intro rr
        rw [ilog2_pow]
        simp only [List.map_append, List.count_append, List.map_cons, List.map_nil]
        rw [hmlcount rr, hmrcount rr]
        by_cases hrr : rr = dd + 1
        · subst hrr
          have hf : ¬(1 ≤ dd + 1 ∧ dd + 1 ≤ dd) := by omega
          have ht : 1 ≤ dd + 1 ∧ dd + 1 ≤ dd + 1 := by omega
          rw [if_neg hf, if_pos ht]
          have hc1 : List.count (dd + 1) [dd + 1] = 1 := by simp
          rw [hc1, Nat.sub_self]
          simp
        · have hc0 : List.count rr [dd + 1] = 0 := by
            rw [List.count_eq_zero]
            simp
            omega
          rw [hc0]
          by_cases hr1 : 1 ≤ rr ∧ rr ≤ dd
          · have ht2 : 1 ≤ rr ∧ rr ≤ dd + 1 := by omega
            rw [if_pos hr1, if_pos ht2]
            have hsub : dd + 1 - rr = (dd - rr) + 1 := by omega
            rw [hsub, pow_succ]
            omega
          · have hf2 : ¬(1 ≤ rr ∧ rr ≤ dd + 1) := by omega
            rw [if_neg hr1, if_neg hf2]

theorem structure_matchesT_good :
    ∀ (s : MTree), goodTree s → ∀ (size : Nat) (ms : List (Nat × Team × Team × Team)),
    structure_matchesT s size = some ms → ∀ m ∈ ms,
    (m.2.2.2 = m.2.1 ∧ m.2.2.2 ≠ m.2.2.1) ∨ (m.2.2.2 = m.2.2.1 ∧ m.2.2.2 ≠ m.2.1) := by
  intro s
  induction s with
  | leaf w =>
    intro _ size ms hms m hm
    match size, hms with
    | 0, hms =>
      obtain rfl : ms = [] := (Option.some.inj hms).symm
      simp at hm
    | 1, hms =>
      obtain rfl : ms = [] := (Option.some.inj hms).symm
      simp at hm
    | n + 2, hms => simp [structure_matchesT] at hms
  | node w l r ihl ihr =>
    intro hg size ms hms m hm
    obtain ⟨hw, hne, hgl, hgr⟩ := hg
    match size, hms with
    | 0, hms =>
      obtain rfl : ms = [] := (Option.some.inj hms).symm
      simp at hm
    | 1, hms =>
      obtain rfl : ms = [] := (Option.some.inj hms).symm
      simp at hm
    | n + 2, hms =>
      rw [structure_matchesT_node w l r _ (by omega)] at hms
      cases hl2 : structure_matchesT l ((n + 2) / 2) with
      | none => rw [hl2] at hms; simp at hms
      | some ml =>
        cases hr2 : structure_matchesT r ((n + 2) / 2) with
        | none => rw [hl2, hr2] at hms; simp at hms
        | some mr =>
          rw [hl2, hr2] at hms
          have hms2 : ml ++ mr ++ [(ilog2 (n + 2), l.winner, r.winner, w)] = ms :=
            Option.some.inj hms
          rw [← hms2] at hm
          rcases List.mem_append.mp hm with hmm | hmm
          · rcases List.mem_append.mp hmm with hmm2 | hmm2
            · exact ihl hgl _ _ hl2 m hmm2
            · exact ihr hgr _ _ hr2 m hmm2
          · rcases List.mem_singleton.mp hmm with rfl
            rcases hw with h | h
            · exact Or.inl ⟨h, h ▸ hne⟩
            · exact Or.inr ⟨h, fun hq => hne (hq.symm.trans h)⟩

/-! ### The power-of-two test in `__init__` -/

theorem land_odd_even (a b : Nat) : (2 * a + 1) &&& (2 * b) = 2 * (a &&& b) := by
  apply Nat.eq_of_testBit_eq
  intro i
  cases i with
  | zero =>
    have h1 : (2 * a + 1) % 2 = 1 := by omega
    have h2 : (2 * b) % 2 = 0 := by omega
    have h3 : (2 * (a &&& b)) % 2 = 0 := by omega
    simp [Nat.testBit_land, Nat.testBit_zero, h1, h2, h3]
  | succ i =>
    have d1 : (2 * a + 1) / 2 = a := by omega
    have d2 : (2 * b) / 2 = b := by omega
    have d3 : (2 * (a &&& b)) / 2 = a &&& b := by omega
    rw [Nat.testBit_land]
    simp only [Nat.testBit_succ, d1, d2, d3, Nat.testBit_land]

theorem land_even_odd (a b : Nat) : (2 * a) &&& (2 * b + 1) = 2 * (a &&& b) := by
  apply Nat.eq_of_testBit_eq
  intro i
  cases i with
  | zero =>
    have h1 : (2 * a) % 2 = 0 := by omega
    have h2 : (2 * b + 1) % 2 = 1 := by omega
    have h3 : (2 * (a &&& b)) % 2 = 0 := by omega
    simp [Nat.testBit_land, Nat.testBit_zero, h1, h2, h3]
  | succ i =>
    have d1 : (2 * a) / 2 = a := by omega
    have d2 : (2 * b + 1) / 2 = b := by omega
    have d3 : (2 * (a &&& b)) / 2 = a &&& b := by omega
    rw [Nat.testBit_land]
    simp only [Nat.testBit_succ, d1, d2, d3, Nat.testBit_land]

theorem land_pred_eq_zero_iff :
    ∀ n : Nat, 1 ≤ n → (n &&& (n - 1) = 0 ↔ ∃ k, n = 2 ^ k) := by
  intro n
  induction n using Nat.strong_induction_on with
  | _ n ih =>
    intro h1
    rcases Nat.even_or_odd n with he | ho
    · obtain ⟨m, hm⟩ := he
      have hm2 : n = 2 * m := by omega
      have hmpos : 1 ≤ m := by omega
      have hpred : n - 1 = 2 * (m - 1) + 1 := by omega
      have hland : n &&& (n - 1) = 2 * (m &&& (m - 1)) := by
        rw [hpred, hm2]
        exact land_even_odd m (m - 1)
      rw [hland]
      have ihm := ih m (by omega) hmpos
      constructor
      · intro h0
        have : m &&& (m - 1) = 0 := by omega
        obtain ⟨j, hj⟩ := ihm.mp this
        exact ⟨j + 1, by rw [hm2, hj, pow_succ]; ring⟩
      · rintro ⟨k, hk⟩
        have hk1 : k ≠ 0 := by
          intro h
          subst h
          simp at hk
          omega
        obtain ⟨j, rfl⟩ : ∃ j, k = j + 1 := ⟨k - 1, by omega⟩
        have hmj : m = 2 ^ j := by
          have : (2 : ℕ) ^ (j + 1) = 2 ^ j * 2 := pow_succ 2 j
          omega
        have : m &&& (m - 1) = 0 := ihm.mpr ⟨j, hmj⟩
        omega
    · obtain ⟨m, hm⟩ := ho
      by_cases hm0 : m = 0
      · subst hm0
        subst hm
        constructor
        · intro _
          exact ⟨0, rfl⟩
        · intro _
          rfl
      · have hpred : n - 1 = 2 * m := by omega
        have hland : n &&& (n - 1) = 2 * m := by
          rw [hpred, hm, land_odd_even, Nat.and_self]
        rw [hland]
        constructor
        · intro h0
          omega
        · rintro ⟨k, hk⟩
          exfalso
          have hk1 : k ≠ 0 := by
            intro h
            subst h
            simp at hk
            omega
          obtain ⟨j, rfl⟩ : ∃ j, k = j + 1 := ⟨k - 1, by omega⟩
          have : (2 : ℕ) ^ (j + 1) = 2 ^ j * 2 := pow_succ 2 j
          omega

/-! ### Claim theorems -/

/-- C1: for every team list of power-of-two size `2 ^ k` with `k ≥ 1` and any
pairwise table with values in `[0,1]`, the values of the mapping returned by
`probability_of_each_team` sum to exactly 1 in exact rational arithmetic,
for arbitrary tables, not only uniform ones. -/
theorem c1_marginals_sum_one (pw : Pairwise) (teams : List Team) (k : Nat)
    (hpw : ∀ a b v, pw a b = some v → 0 ≤ v ∧ v ≤ 1)
    (hlen : teams.length = 2 ^ k) (hk : 1 ≤ k) :
    sumValues (probability_of_each_team pw teams) = 1 := by
  have hpos : 0 < 2 ^ k := pow_pos (by norm_num) k
  have hne : teams ≠ [] := by
    intro h
    rw [h] at hlen
    simp at hlen
    omega
  exact sumValues_marginalsFuel pw teams.length teams hne le_rfl

theorem c1_witness :
    (∀ a b v, pwEmpty a b = some v → 0 ≤ v ∧ v ≤ 1)
    ∧ teams2.length = 2 ^ 1 ∧ 1 ≤ 1
    ∧ sumValues (probability_of_each_team pwEmpty teams2) = 1 := by
  refine ⟨?_, rfl, le_rfl, ?_⟩
  · intro a b v h
    simp [pwEmpty] at h
  · exact c1_marginals_sum_one pwEmpty teams2 1
      (fun a b v h => by simp [pwEmpty] at h) rfl le_rfl

/-- C2 counterexample: with the boundary table value `P(A,B) = 0` (legal in
`[0,1]`), team A of the 2-team list gets no entry in the `_dp` result:
the candidate probability `1 * 1 * 0 = 0` never strictly exceeds the
default 0, so the entry is never written. -/
theorem c2_counterexample :
    tA ∈ teams2 ∧ (∀ a b v, pw0 a b = some v → 0 ≤ v ∧ v ≤ 1)
    ∧ dlookup (dp pw0 teams2) tA = none := by
  refine ⟨by simp [teams2], ?_, by with_unfolding_all rfl⟩
  intro a b v h
  simp only [pw0] at h
  split at h
  · rw [← Option.some.inj h]
    norm_num
  · exact absurd h (by simp)

/-- C2 (amended): when every lookup the solver can make is strictly between
0 and 1 — in particular when all stored values lie in the open interval
(0,1) — the max-likelihood Subtree Result for the full list contains an
entry for every one of the teams. -/
theorem c2_amended_all_teams_present (pw : Pairwise) (teams : List Team)
    (hp0 : ∀ x y : Team, 0 < p pw x y) (hp1 : ∀ x y : Team, p pw x y < 1) :
    ∀ t ∈ teams, ∃ v, dlookup (dp pw teams) t = some v := by
  intro t ht
  have hk := dpFuel_keys_all pw hp0 hp1 teams.length teams le_rfl t ht
  cases hl : dlookup (dp pw teams) t with
  | none =>
    rw [dlookup_eq_none_iff] at hl
    exact absurd hk hl
  | some v => exact ⟨v, rfl⟩

theorem c2_witness :
    (∀ x y : Team, 0 < p pwEmpty x y) ∧ (∀ x y : Team, p pwEmpty x y < 1)
    ∧ ∀ t ∈ teams2, ∃ v, dlookup (dp pwEmpty teams2) t = some v := by
  have h0 : ∀ x y : Team, 0 < p pwEmpty x y := by
    intro x y
    norm_num [p, pwEmpty]
  have h1 : ∀ x y : Team, p pwEmpty x y < 1 := by
    intro x y
    norm_num [p, pwEmpty]
  exact ⟨h0, h1, c2_amended_all_teams_present pwEmpty teams2 h0 h1⟩

/-- C3: what `flatten_structure` actually returns on the match tree computed
by `most_likely_bracket` for the 4-team example: the code passes `prefix`
through unchanged, so every entry carries round index `len([]) + 1 = 1`
— including the championship — and the four leaves contribute entries of
their own, contrary to the spec (leaves contribute nothing, round index
grows with depth from the leaves). -/
theorem c3_flatten_all_round_one :
    (most_likely_bracket pw7 teams4).map (fun r => flatten_structure (some r.2.2) [])
      = some [(1, tA), (1, tB), (1, tA), (1, tC), (1, tD), (1, tC), (1, tA)] := by
  with_unfolding_all rfl

/-- C4: for a valid team list of size `2 ^ d` (`d ≥ 1`), `structure_matches`
on the tree returned by `most_likely_bracket`, called with the team count,
succeeds with exactly `n - 1` match tuples, and for each round `r` from 1 to
`d` there are exactly `2 ^ (d - r)` tuples carrying round number `r` — i.e.
a match recorded at a subtree of size `k` carries round `log2 k`, first-round
matches carry 1 and the single championship match carries `d = log2 n`. -/
theorem c4_structure_matches (pw : Pairwise) (teams : List Team) (d : Nat)
    (hd : 1 ≤ d) (hlen : teams.length = 2 ^ d) :
    ∃ c q s ms, most_likely_bracket pw teams = some (c, q, s)
      ∧ structure_matches (some s) teams.length = some ms
      ∧ ms.length = teams.length - 1
      ∧ ∀ r : Nat, (ms.map (fun m => m.1)).count r
          = if 1 ≤ r ∧ r ≤ d then 2 ^ (d - r) else 0 := by
  have hpos : 0 < 2 ^ d := pow_pos (by norm_num) d
  have hne : teams ≠ [] := by
    intro h
    rw [h] at hlen
    simp at hlen
    omega
  have hdp : dp pw teams ≠ [] := dpFuel_ne_nil pw teams.length teams hne le_rfl
  obtain ⟨c, q, s, hmax⟩ := maxByProb_ne_nil hdp
  have hmem : (c, (q, s)) ∈ dp pw teams := maxByProb_mem hmax
  have hperf : isPerfect s d :=
    dpFuel_perfect pw teams.length d teams hlen le_rfl (c, (q, s)) hmem
  obtain ⟨ms, hms, hlen2, hcount⟩ := structure_matchesT_perfect s d hperf
  refine ⟨c, q, s, ms, hmax, ?_, ?_, hcount⟩
  · show structure_matchesT s teams.length = some ms
    rw [hlen]
    exact hms
  · rw [hlen2, hlen]

theorem c4_witness :
    1 ≤ 2 ∧ teams4.length = 2 ^ 2
    ∧ ∃ c q s ms, most_likely_bracket pw7 teams4 = some (c, q, s)
      ∧ structure_matches (some s) teams4.length = some ms
      ∧ ms.length = teams4.length - 1
      ∧ ∀ r : Nat, (ms.map (fun m => m.1)).count r
          = if 1 ≤ r ∧ r ≤ 2 then 2 ^ (2 - r) else 0 :=
  ⟨by norm_num, rfl, c4_structure_matches pw7 teams4 2 (by norm_num) rfl⟩

/-- C5: construction raises the `ValueError` exactly when the team count is
zero, one, or not a power of two, and succeeds (storing the fields, before
any other computation) exactly when the count is `2 ^ k` with `k ≥ 1`. -/
theorem c5_init_iff (teams : List Team) (pw : Pairwise) :
    ((∃ e, bracketInit teams pw = Except.error e)
        ↔ (teams.length = 0 ∨ teams.length = 1 ∨ ∀ k, teams.length ≠ 2 ^ k))
    ∧ ((bracketInit teams pw = Except.ok { teams := teams, pairwise := pw })
        ↔ ∃ k, 1 ≤ k ∧ teams.length = 2 ^ k) := by
  have key : (teams.length < 2 ∨ teams.length &&& (teams.length - 1) ≠ 0)
      ↔ (teams.length = 0 ∨ teams.length = 1 ∨ ∀ k, teams.length ≠ 2 ^ k) := by
    constructor
    · rintro (h | h)
      · have h0 : teams.length = 0 ∨ teams.length = 1 := by omega
        rcases h0 with h0 | h0
        · exact Or.inl h0
        · exact Or.inr (Or.inl h0)
      · by_cases h2 : teams.length < 2
        · omega
        · right; right
          intro k hk
          exact h ((land_pred_eq_zero_iff teams.length (by omega)).mpr ⟨k, hk⟩)
    · rintro (h | h | h)
      · left; omega
      · left; omega
      · by_cases h2 : teams.length < 2
        · left; exact h2
        · right
          intro h0
          obtain ⟨k, hk⟩ := (land_pred_eq_zero_iff teams.length (by omega)).mp h0
          exact h k hk
  have key2 : ¬(teams.length < 2 ∨ teams.length &&& (teams.length - 1) ≠ 0)
      ↔ ∃ k, 1 ≤ k ∧ teams.length = 2 ^ k := by
    constructor
    · intro h
      push_neg at h
      obtain ⟨h2, h0⟩ := h
      obtain ⟨k, hk⟩ := (land_pred_eq_zero_iff teams.length (by omega)).mp h0
      refine ⟨k, ?_, hk⟩
      by_contra hk1
      have hk0 : k = 0 := by omega
      subst hk0
      simp at hk
      omega
    · rintro ⟨k, hk1, hk2⟩
      push_neg
      have h2 : 1 < 2 ^ k := Nat.one_lt_two_pow_iff.mpr (by omega)
      constructor
      · omega
      · exact (land_pred_eq_zero_iff teams.length (by omega)).mpr ⟨k, hk2⟩
  by_cases hc : teams.length < 2 ∨ teams.length &&& (teams.length - 1) ≠ 0
  · have he : bracketInit teams pw = Except.error initErrorMsg := by
      simp only [bracketInit]
      rw [if_pos hc]
    constructor
    · exact iff_of_true ⟨initErrorMsg, he⟩ (key.mp hc)
    · apply iff_of_false
      · rw [he]
        intro h
        exact Except.noConfusion h
      · intro hex
        exact (key2.mpr hex) hc
  · have he : bracketInit teams pw = Except.ok { teams := teams, pairwise := pw } := by
      simp only [bracketInit]
      rw [if_neg hc]
    constructor
    · apply iff_of_false
      · rintro ⟨e, hee⟩
        rw [he] at hee
        exact Except.noConfusion hee
      · intro hr
        exact hc (key.mpr hr)
    · exact iff_of_true he (key2.mp hc)

/-- C6: for every ordered pair `(a, b)`, the lookup `_p` returns the stored
value when `(a, b)` is a key of the table and exactly 0.5 when it is absent;
each directed pair is looked up independently and the lookup is total. -/
theorem c6_lookup (pw : Pairwise) (a b : Team) :
    (∀ v, pw a b = some v → p pw a b = v) ∧ (pw a b = none → p pw a b = 1 / 2) := by
  constructor
  · intro v h
    simp [p, h]
  · intro h
    simp [p, h]

theorem c6_witness : p pw7 tA tB = 9 / 10 ∧ p pwEmpty tA tB = 1 / 2 :=
  ⟨(c6_lookup pw7 tA tB).1 (9 / 10) rfl, (c6_lookup pwEmpty tA tB).2 rfl⟩

/-- C7: for the 4-team list [A,B,C,D] with P(A,B)=0.9, P(C,D)=0.8,
P(A,C)=0.6 (other pairs symmetric or defaulting to 0.5),
`most_likely_bracket` returns champion A with probability
0.9 · 0.8 · 0.6 = 0.432 = 54/125 exactly. -/
theorem c7_four_team_example :
    (most_likely_bracket pw7 teams4).map (fun r => (r.1, r.2.1))
      = some (tA, 54 / 125) := by
  with_unfolding_all rfl

/-- C8: when every pairwise lookup yields 0.5, `probability_of_each_team`
assigns every team of a `2 ^ k`-team list (distinct teams, `k ≥ 1`) exactly
the probability `1 / n`. -/
theorem c8_uniform_marginals (pw : Pairwise) (teams : List Team) (k : Nat)
    (huni : ∀ a b, p pw a b = 1 / 2) (hnd : teams.Nodup)
    (hlen : teams.length = 2 ^ k) (hk : 1 ≤ k) :
    ∀ t ∈ teams,
    dlookup (probability_of_each_team pw teams) t
      = some (1 / (teams.length : ℚ)) := by
  intro t ht
  have h : dlookup (probability_of_each_team pw teams) t = some (1 / 2 ^ k) :=
    marginalsFuel_uniform pw huni teams.length k teams hnd hlen le_rfl t ht
  rw [h, hlen]
  congr 1
  push_cast
  ring

theorem c8_witness :
    (∀ a b, p pwEmpty a b = 1 / 2) ∧ teams4.Nodup ∧ teams4.length = 2 ^ 2
    ∧ ∀ t ∈ teams4,
      dlookup (probability_of_each_team pwEmpty teams4) t
        = some (1 / (teams4.length : ℚ)) := by
  have hu : ∀ a b, p pwEmpty a b = 1 / 2 := fun a b => rfl
  have hnd : teams4.Nodup := by decide
  exact ⟨hu, hnd, rfl,
    c8_uniform_marginals pwEmpty teams4 2 hu hnd rfl (by norm_num)⟩

/-- C9: with all table values in [0,1], every probability recorded by the
max-likelihood solver and every marginal recorded by the marginal solver lies
in [0,1]; the statement quantifies over every nonempty team list, so it covers
the Subtree Results at every level of the recursion. -/
theorem c9_probs_in_unit_interval (pw : Pairwise) (teams : List Team)
    (hpw : ∀ a b v, pw a b = some v → 0 ≤ v ∧ v ≤ 1) (hne : teams ≠ []) :
    (∀ e ∈ dp pw teams, 0 ≤ e.2.1 ∧ e.2.1 ≤ 1)
    ∧ (∀ e ∈ probability_of_each_team pw teams, 0 ≤ e.2 ∧ e.2 ≤ 1) := by
  constructor
  · intro e he
    exact ⟨le_of_lt (dpFuel_pos pw teams.length teams e he),
      dpFuel_le_one pw hpw teams.length teams e he⟩
  · intro e he
    exact ⟨marginalsFuel_nonneg pw hpw teams.length teams e he,
      marginalsFuel_le_one pw hpw teams.length teams hne le_rfl e he⟩

theorem c9_witness :
    (∀ a b v, pw7 a b = some v → 0 ≤ v ∧ v ≤ 1) ∧ teams4 ≠ []
    ∧ ((∀ e ∈ dp pw7 teams4, 0 ≤ e.2.1 ∧ e.2.1 ≤ 1)
        ∧ (∀ e ∈ probability_of_each_team pw7 teams4, 0 ≤ e.2 ∧ e.2 ≤ 1)) := by
  have hval : ∀ a b v, pw7 a b = some v → 0 ≤ v ∧ v ≤ 1 := by
    intro a b v h
    simp only [pw7] at h
    repeat' split at h
    all_goals
      first
        | (rw [← Option.some.inj h]; constructor <;> norm_num)
        | exact absurd h (by simp)
  have hne : teams4 ≠ [] := by simp [teams4]
  exact ⟨hval, hne, c9_probs_in_unit_interval pw7 teams4 hval hne⟩

/-- C10: for a valid team list (distinct teams, size `2 ^ d`, `d ≥ 1`), in
every tuple (round, left-finalist, right-finalist, winner) produced by
`structure_matches` on the tree from `most_likely_bracket`, the winner equals
exactly one of the two finalists, which are the winners of the two child
subtrees. -/
theorem c10_winner_from_finalists (pw : Pairwise) (teams : List Team) (d : Nat)
    (hnd : teams.Nodup) (hd : 1 ≤ d) (hlen : teams.length = 2 ^ d) :
    ∃ c q s ms, most_likely_bracket pw teams = some (c, q, s)
      ∧ structure_matches (some s) teams.length = some ms
      ∧ ∀ m ∈ ms, (m.2.2.2 = m.2.1 ∧ m.2.2.2 ≠ m.2.2.1)
          ∨ (m.2.2.2 = m.2.2.1 ∧ m.2.2.2 ≠ m.2.1) := by
  have hpos : 0 < 2 ^ d := pow_pos (by norm_num) d
  have hne : teams ≠ [] := by
    intro h
    rw [h] at hlen
    simp at hlen
    omega
  have hdp : dp pw teams ≠ [] := dpFuel_ne_nil pw teams.length teams hne le_rfl
  obtain ⟨c, q, s, hmax⟩ := maxByProb_ne_nil hdp
  have hmem : (c, (q, s)) ∈ dp pw teams := maxByProb_mem hmax
  have hgood : goodTree s :=
    (dpFuel_good pw teams.length teams hnd le_rfl (c, (q, s)) hmem).2.1
  have hperf : isPerfect s d :=
    dpFuel_perfect pw teams.length d teams hlen le_rfl (c, (q, s)) hmem
  obtain ⟨ms, hms, _, _⟩ := structure_matchesT_perfect s d hperf
  have hsm : structure_matchesT s teams.length = some ms := by
    rw [hlen]
    exact hms
  exact ⟨c, q, s, ms, hmax, hsm,
    structure_matchesT_good s hgood teams.length ms hsm⟩

theorem c10_witness :
    teams4.Nodup ∧ 1 ≤ 2 ∧ teams4.length = 2 ^ 2
    ∧ ∃ c q s ms, most_likely_bracket pw7 teams4 = some (c, q, s)
      ∧ structure_matches (some s) teams4.length = some ms
      ∧ ∀ m ∈ ms, (m.2.2.2 = m.2.1 ∧ m.2.2.2 ≠ m.2.2.1)
          ∨ (m.2.2.2 = m.2.2.1 ∧ m.2.2.2 ≠ m.2.1) := by
  have hnd : teams4.Nodup := by decide
  exact ⟨hnd, by norm_num, rfl,
    c10_winner_from_finalists pw7 teams4 2 hnd (by norm_num) rfl⟩

end Bracket
